import Mathlib

/-!
Verification of the claims about `google-photos-fixer.py`.

The Python program is shallowly embedded: Python strings become `List Char`,
the filesystem becomes an association list from paths to contents, and the
`GooglePhotosFixer` object's mutable `fixes`/`errors` lists together with the
filesystem become an explicit state record threaded through each operation.
Regular-expression searches from the source are modelled by explicit leftmost
scanners with the same fixed-width semantics.
-/

namespace GPF

/-- Python strings are modelled as lists of characters. -/
abbrev Str := List Char

/-- Coerce a Lean string literal into the character-list model. -/
def pstr (s : String) : Str := s.data

/-! ### Basic string operations -/

/-- Boolean prefix test on character lists. -/
def isPre : Str → Str → Bool
  | [], _ => true
  | _ :: _, [] => false
  | a :: as, b :: bs => decide (a = b) && isPre as bs

/-- Python's substring test `needle in hay` (for the nonempty needles the code uses). -/
def containsSub : Str → Str → Bool
  | n, [] => n.isEmpty
  | n, c :: r => isPre n (c :: r) || containsSub n r

/-- Python's `str.endswith`. -/
def endsL (l suf : Str) : Bool := isPre suf.reverse l.reverse

/-- Fuelled engine of `replaceList`; the fuel only drives structural recursion
and is always sufficient when it starts at the hay's length. -/
def replaceFuel (n r : Str) : Nat → Str → Str
  | _, [] => []
  | 0, l => l
  | fuel + 1, c :: rest =>
    if n ≠ [] ∧ isPre n (c :: rest) = true then
      r ++ replaceFuel n r fuel ((c :: rest).drop n.length)
    else
      c :: replaceFuel n r fuel rest

/-- Python's `str.replace(needle, repl)`: replace all non-overlapping occurrences,
left to right. -/
def replaceList (n r l : Str) : Str := replaceFuel n r l.length l

/-- Python's `os.path.basename`: the part after the last slash. -/
def basenameList (p : Str) : Str := (p.reverse.takeWhile (fun c => decide (c ≠ '/'))).reverse

/-- Trailing-slash handling of `os.path.dirname`, applied to the reversed
`p[:i]` head: strip trailing slashes unless the head is all slashes. -/
def dirAux (head : Str) : Str :=
  if head.isEmpty then []
  else if head.all (fun c => decide (c = '/')) then head.reverse
  else (head.dropWhile (fun c => decide (c = '/'))).reverse

/-- Python's `os.path.dirname`: the part before the last slash, with trailing
slashes stripped unless it consists only of slashes. -/
def dirnameList (p : Str) : Str :=
  dirAux (p.reverse.dropWhile (fun c => decide (c ≠ '/')))

/-- Python's `os.path.join` for two components (POSIX semantics). -/
def pathJoin (a b : Str) : Str :=
  if isPre ['/'] b then b
  else if a.isEmpty then b
  else if endsL a ['/'] then a ++ b
  else a ++ '/' :: b

/-- Python's `os.path.splitext` applied to a basename: split off the extension at
the last dot, unless every character before that dot is itself a dot. -/
def splitExtB (b : Str) : Str × Str :=
  match b.reverse.span (fun c => decide (c ≠ '.')) with
  | (_, []) => (b, [])
  | (extRev, _ :: remRev) =>
    if remRev.any (fun c => decide (c ≠ '.')) then
      (remRev.reverse, '.' :: extRev.reverse)
    else (b, [])

/-- The source's `filename_without_ext`: `os.path.splitext(os.path.basename(p))[0]`. -/
def filename_without_ext (p : Str) : Str := (splitExtB (basenameList p)).1

/-- The extension of a path, `os.path.splitext(p)[1]`. -/
def extOf (p : Str) : Str := (splitExtB (basenameList p)).2

/-- Python's `str.lower` on the ASCII extensions the code compares. -/
def lowerL (l : Str) : Str := l.map Char.toLower

/-- Python's `x.rsplit('.', 1)[0] + '.' + x.rsplit('.', 1)[1]` from the source:
the identity on names that contain a dot.  (Python raises `IndexError` on names
without one; the media basenames the code passes always carry an extension.) -/
def rsplitRejoin (x : Str) : Str :=
  match x.reverse.span (fun c => decide (c ≠ '.')) with
  | (_, []) => x
  | (afterRev, _ :: beforeRev) => beforeRev.reverse ++ '.' :: afterRev.reverse

/-! ### Pattern matchers (the `re` searches of the source) -/

/-- Read exactly `k` decimal digits, returning their value and the rest. -/
def readDigitsAux (acc : Nat) : Nat → Str → Option (Nat × Str)
  | 0, l => some (acc, l)
  | _ + 1, [] => none
  | k + 1, c :: l =>
    if c.isDigit then readDigitsAux (acc * 10 + (c.toNat - 48)) k l else none

/-- Leftmost scan: try the fixed-width matcher at every position, as `re.search`
does for the fixed-width patterns of the source. -/
def scanL (f : Str → Option α) : Str → Option α
  | [] => f []
  | c :: rest =>
    match f (c :: rest) with
    | some r => some r
    | none => scanL f rest

/-- Matcher for `(\d{4})(\d{2})(\d{2})_(\d{2})(\d{2})(\d{2})` at one position. -/
def matchP1 (l : Str) : Option (Nat × Nat × Nat × Nat × Nat × Nat) := do
  let (y, l) ← readDigitsAux 0 4 l
  let (mo, l) ← readDigitsAux 0 2 l
  let (d, l) ← readDigitsAux 0 2 l
  match l with
  | '_' :: l =>
    let (h, l) ← readDigitsAux 0 2 l
    let (mi, l) ← readDigitsAux 0 2 l
    let (s, _) ← readDigitsAux 0 2 l
    pure (y, mo, d, h, mi, s)
  | _ => none

/-- The seven captured groups of the 17-digit pattern. -/
structure G17 where
  y : Nat
  mo : Nat
  d : Nat
  h : Nat
  mi : Nat
  s : Nat
  ms : Nat
deriving DecidableEq, Repr

/-- Matcher for `(\d{4})(\d{2})(\d{2})(\d{2})(\d{2})(\d{2})(\d{3})` at one position. -/
def matchP2 (l : Str) : Option G17 := do
  let (y, l) ← readDigitsAux 0 4 l
  let (mo, l) ← readDigitsAux 0 2 l
  let (d, l) ← readDigitsAux 0 2 l
  let (h, l) ← readDigitsAux 0 2 l
  let (mi, l) ← readDigitsAux 0 2 l
  let (s, l) ← readDigitsAux 0 2 l
  let (ms, _) ← readDigitsAux 0 3 l
  pure ⟨y, mo, d, h, mi, s, ms⟩

/-- Matcher for `_(\d{4})(\d{2})(\d{2})(\d{2})(\d{2})(\d{2})_` at one position. -/
def matchP3 (l : Str) : Option (Nat × Nat × Nat × Nat × Nat × Nat) := do
  match l with
  | '_' :: l =>
    let (y, l) ← readDigitsAux 0 4 l
    let (mo, l) ← readDigitsAux 0 2 l
    let (d, l) ← readDigitsAux 0 2 l
    let (h, l) ← readDigitsAux 0 2 l
    let (mi, l) ← readDigitsAux 0 2 l
    let (s, l) ← readDigitsAux 0 2 l
    match l with
    | '_' :: _ => pure (y, mo, d, h, mi, s)
    | _ => none
  | _ => none

/-- Matcher for `Photos from (\d{4})/` at one position. -/
def matchP4 (l : Str) : Option Nat :=
  if isPre (pstr "Photos from ") l then
    match readDigitsAux 0 4 (l.drop 12) with
    | some (y, '/' :: _) => some y
    | _ => none
  else none

/-- Matcher for the anchored search `(\(\d+\))$`: a trailing parenthesized
nonempty digit group; returns the matched group including the parentheses. -/
def trailingParen (s : Str) : Option Str :=
  match s.reverse with
  | [] => none
  | c :: rest =>
    if c = ')' then
      match rest.span Char.isDigit with
      | (ds, rest2) =>
        match rest2 with
        | [] => none
        | c2 :: _ =>
          if c2 = '(' ∧ ds ≠ [] then some ('(' :: (ds.reverse ++ [')'])) else none
    else none

/-- The anchored search `Photos from (\d+)$` on a dirname: the string ends with
the literal `Photos from ` followed by a nonempty run of digits. -/
def isYearDir (d : Str) : Bool :=
  match d.reverse.span Char.isDigit with
  | (ds, rest) => !ds.isEmpty && isPre (pstr "Photos from ").reverse rest

/-- The anchored substitution `re.sub(r'\.suppl\.json$', '.supplemental-metadata.json', j)`. -/
def subSupplJson (j : Str) : Str :=
  if endsL j (pstr ".suppl.json") then
    (j.reverse.drop 11).reverse ++ pstr ".supplemental-metadata.json"
  else j

/-! ### Python `datetime` model -/

/-- A Python naive `datetime` value. -/
structure PyDateTime where
  year : Nat
  month : Nat
  day : Nat
  hour : Nat
  minute : Nat
  second : Nat
  microsecond : Nat
deriving DecidableEq, Repr

/-- Gregorian leap-year rule, as Python's `calendar`/`datetime` use. -/
def isLeapYear (y : Nat) : Bool := y % 4 == 0 && (y % 100 != 0 || y % 400 == 0)

/-- Days in a month of a given year. -/
def daysInMonth (y m : Nat) : Nat :=
  if m == 2 then (if isLeapYear y then 29 else 28)
  else if m == 4 || m == 6 || m == 9 || m == 11 then 30
  else 31

/-- The argument ranges accepted by the `datetime` constructor; outside them it
raises `ValueError`. -/
def validDT (y mo d h mi s us : Nat) : Bool :=
  decide (1 ≤ y) && decide (y ≤ 9999) && decide (1 ≤ mo) && decide (mo ≤ 12) &&
  decide (1 ≤ d) && decide (d ≤ daysInMonth y mo) && decide (h ≤ 23) &&
  decide (mi ≤ 59) && decide (s ≤ 59) && decide (us ≤ 999999)

/-- The `datetime(...)` constructor: `none` models the raised `ValueError`. -/
def mkDatetime (y mo d h mi s us : Nat) : Option PyDateTime :=
  if validDT y mo d h mi s us then some ⟨y, mo, d, h, mi, s, us⟩ else none

/-- Decimal digits of a natural number. -/
def natStr (n : Nat) : Str := Nat.toDigits 10 n

/-- Zero-padded decimal rendering of width `w`. -/
def padNat (w n : Nat) : Str :=
  List.replicate (w - (natStr n).length) '0' ++ natStr n

/-- Python's `str(datetime)`: `YYYY-MM-DD HH:MM:SS[.ffffff]`. -/
def pyStr (t : PyDateTime) : Str :=
  padNat 4 t.year ++ '-' :: (padNat 2 t.month ++ '-' :: (padNat 2 t.day ++
    ' ' :: (padNat 2 t.hour ++ ':' :: (padNat 2 t.minute ++ ':' :: (padNat 2 t.second ++
    (if t.microsecond == 0 then [] else '.' :: padNat 6 t.microsecond))))))

/-- Days between a proleptic-Gregorian civil date (year ≥ 1) and 1970-01-01. -/
def daysFromEpoch (y m d : Nat) : Int :=
  let yy := if m ≤ 2 then y - 1 else y
  let era := yy / 400
  let yoe := yy % 400
  let mp := if m ≤ 2 then m + 9 else m - 3
  let doy := (153 * mp + 2) / 5 + d - 1
  let doe := yoe * 365 + yoe / 4 - yoe / 100 + doy
  (era * 146097 + doe : Int) - 719468

/-- Whole-second epoch value of a datetime.  The model places naive datetimes in
UTC (Python's `datetime.timestamp()` interprets them in the local timezone). -/
def epochSeconds (t : PyDateTime) : Int :=
  daysFromEpoch t.year t.month t.day * 86400 + t.hour * 3600 + t.minute * 60 + t.second

/-- Python's `int(t.timestamp())`: truncation toward zero of the fractional
epoch value. -/
def pyIntTimestamp (t : PyDateTime) : Int :=
  if epochSeconds t < 0 ∧ t.microsecond ≠ 0 then epochSeconds t + 1 else epochSeconds t

/-- Python's `str(int)`. -/
def intStr (i : Int) : Str :=
  if i < 0 then '-' :: natStr i.natAbs else natStr i.natAbs

/-! ### Filesystem and run state -/

/-- A `timestamp`/`formatted` pair of the synthesized sidecar JSON. -/
structure TimeField where
  timestamp : Str
  formatted : Str
deriving DecidableEq, Repr

/-- The synthesized sidecar record built by `generate_metadata_for_image_file`. -/
structure SidecarRecord where
  title : Str
  description : Str
  imageViews : Str
  creationTime : TimeField
  photoTakenTime : TimeField
deriving DecidableEq, Repr

/-- File contents: opaque bytes, or a serialized sidecar record. -/
inductive Content where
  | raw : Str → Content
  | json : SidecarRecord → Content
deriving DecidableEq, Repr

/-- Association-list lookup by path. -/
def lookupL : List (Str × Content) → Str → Option Content
  | [], _ => none
  | e :: rest, p => if e.1 = p then some e.2 else lookupL rest p

/-- The filesystem: a finite list of (path, content) pairs; list order is the
enumeration order `os.walk` produces. -/
structure FS where
  files : List (Str × Content)
deriving DecidableEq, Repr

/-- Read a file's content, `none` when the path does not exist. -/
def FS.readF (fs : FS) (p : Str) : Option Content := lookupL fs.files p

/-- Python's `os.path.exists`. -/
def FS.existsP (fs : FS) (p : Str) : Bool := (fs.readF p).isSome

/-- Remove a path (used by move; the unused `os.remove` primitive also maps here). -/
def FS.removeP (fs : FS) (p : Str) : FS :=
  ⟨fs.files.filter (fun e => !decide (e.1 = p))⟩

/-- Create or overwrite a file. -/
def FS.writeF (fs : FS) (p : Str) (c : Content) : FS :=
  ⟨(fs.removeP p).files ++ [(p, c)]⟩

/-- The run state: the filesystem plus the fixer's `fixes` and `errors` lists. -/
structure St where
  fs : FS
  fixes : List Str
  errors : List Str
deriving DecidableEq, Repr

/-- Append an entry to `self.errors`. -/
def addError (st : St) (m : Str) : St := { st with errors := st.errors ++ [m] }

/-- Append an entry to `self.fixes`. -/
def addFix (st : St) (m : Str) : St := { st with fixes := st.fixes ++ [m] }

/-- The source's `copy_file`: `shutil.copy2` plus a fix entry.  A missing origin
would raise in Python (fatal); callers always check existence first, so that
case is modelled as leaving the state unchanged. -/
def copy_file (st : St) (origin destination : Str) : St :=
  match st.fs.readF origin with
  | some c =>
    addFix { st with fs := st.fs.writeF destination c }
      (basenameList origin ++ pstr " copied to " ++ basenameList destination)
  | none => st

/-- The source's `move_file`: `shutil.move` plus a fix entry; same convention
for the (never exercised) missing-origin case as `copy_file`. -/
def move_file (st : St) (origin destination : Str) : St :=
  match st.fs.readF origin with
  | some c =>
    addFix { st with fs := (st.fs.removeP origin).writeF destination c }
      (basenameList origin ++ pstr " moved to " ++ basenameList destination)
  | none => st

/-- The source's `delete_file` (`os.remove`); defined by the class but invoked
nowhere in `execute` or the operations it calls. -/
def delete_file (st : St) (origin : Str) : St :=
  { st with fs := st.fs.removeP origin }

/-- The source's `write_file`: write text and record a fix. -/
def write_file (st : St) (name : Str) (content : Content) : St :=
  addFix { st with fs := st.fs.writeF name content } (basenameList name ++ pstr " written")

/-! ### The fixer's core operations -/

/-- The canonical sidecar path: `f"{image_file}.{METADATA_JSON}"`. -/
def metadata_file_for (image_file : Str) : Str :=
  image_file ++ pstr ".supplemental-metadata.json"

/-- The source's `infer_time_from_image_file`: ordered pattern rules over the
basename (rule 4 over the full path), first match wins; a match with an invalid
calendar date records one error and returns no timestamp.  (In rule 4 a year
`0000` would raise an uncaught `ValueError` in Python; that dead branch is
modelled as returning no timestamp.) -/
def infer_time_from_image_file (st : St) (image_file : Str) : Option PyDateTime × St :=
  let filename := filename_without_ext image_file
  match scanL matchP1 filename with
  | some (y, mo, d, h, mi, s) =>
    (match mkDatetime y mo d h mi s 0 with
     | some t => (some t, st)
     | none => (none, addError st (pstr "Invalid date in filename: " ++ image_file)))
  | none =>
  match scanL matchP2 filename with
  | some g =>
    (match mkDatetime g.y g.mo g.d g.h g.mi g.s (g.ms * 1000) with
     | some t => (some t, st)
     | none => (none, addError st (pstr "Invalid date in filename: " ++ image_file)))
  | none =>
  match scanL matchP3 filename with
  | some (y, mo, d, h, mi, s) =>
    (match mkDatetime y mo d h mi s 0 with
     | some t => (some t, st)
     | none => (none, addError st (pstr "Invalid date in filename: " ++ image_file)))
  | none =>
  match scanL matchP4 image_file with
  | some y =>
    (match mkDatetime y 1 1 0 0 0 0 with
     | some t => (some t, st)
     | none => (none, st))
  | none => (none, st)

/-- The JSON object built at lines 105–117 of the source. -/
def jsonContentFor (image_file : Str) (t : PyDateTime) : SidecarRecord :=
  { title := basenameList image_file
  , description := pstr "Metadata inferred from " ++ filename_without_ext image_file
  , imageViews := pstr "1"
  , creationTime := { timestamp := intStr (pyIntTimestamp t), formatted := pyStr t }
  , photoTakenTime := { timestamp := intStr (pyIntTimestamp t), formatted := pyStr t } }

/-- The source's `generate_metadata_for_image_file`. -/
def generate_metadata_for_image_file (st : St) (image_file : Str) : St :=
  let metadata_filename := metadata_file_for image_file
  if st.fs.existsP metadata_filename then st
  else
    match infer_time_from_image_file st image_file with
    | (some t, st') => write_file st' metadata_filename (Content.json (jsonContentFor image_file t))
    | (none, st') => addError st' (pstr "Unable to infer metadata for " ++ image_file)

/-- The source's `fix_divergent_metadata_filename`: normalize a truncated
`.suppl.json` sidecar name to the canonical suffix, returning the (possibly
renamed) path. -/
def fix_divergent_metadata_filename (st : St) (json_file : Str) : Str × St :=
  if endsL json_file (pstr "supplemental-metadata.json") then (json_file, st)
  else
    let fixed_json_file := subSupplJson json_file
    if fixed_json_file = json_file then (json_file, st)
    else (fixed_json_file, move_file st json_file fixed_json_file)

/-- Lines 137–143 of the source: the `-editada` copy rule. -/
def editada_step (st : St) (image_file : Str) : St :=
  if containsSub (pstr "-editada") image_file then
    let original_file := replaceList (pstr "-editada") [] image_file
    let original_meta := original_file ++ pstr ".supplemental-metadata.json"
    if st.fs.existsP original_meta then
      copy_file st original_meta (image_file ++ pstr ".supplemental-metadata.json")
    else st
  else st

/-- Lines 145–166 of the source: the trailing-`(N)` numbered-duplicate rename rule. -/
def numbered_step (st1 : St) (image_file : Str) : St :=
  match trailingParen (filename_without_ext image_file) with
  | some num =>
    let filename_without_num := rsplitRejoin (replaceList num [] (basenameList image_file))
    let dir_path := dirnameList image_file
    let wrong_json_file :=
      pathJoin dir_path (filename_without_num ++ pstr ".supplemental-metadata" ++ num ++ pstr ".json")
    let fixed_json_file :=
      pathJoin dir_path (basenameList image_file ++ pstr ".supplemental-metadata.json")
    if st1.fs.existsP wrong_json_file then
      if st1.fs.existsP fixed_json_file then
        addError st1 (pstr "Metadata file already exist: " ++ fixed_json_file)
      else move_file st1 wrong_json_file fixed_json_file
    else
      addError st1 (pstr "Metadata file: " ++ wrong_json_file ++
        pstr " not exist for image: " ++ image_file)
  | none => st1

/-- The source's `fix_metadata_file_for_image`: the `-editada` copy rule followed
by the trailing-`(N)` numbered-duplicate rename rule. -/
def fix_metadata_file_for_image (st : St) (image_file : Str) : St :=
  numbered_step (editada_step st image_file) image_file

/-! ### The run (`execute`) -/

/-- The supported media extensions of the source, lower case. -/
def SUPPORTED_IMAGE_EXT : List Str :=
  [pstr ".jpg", pstr ".jpeg", pstr ".png", pstr ".gif", pstr ".webp", pstr ".heic",
   pstr ".mov", pstr ".mp4", pstr ".3gp", pstr ".avi", pstr ".mkv", pstr ".webm"]

/-- Membership of a string in a list of strings. -/
def memB (x : Str) (l : List Str) : Bool := l.any (fun e => decide (e = x))

/-- One `print(f"[{index}/{len}] {item}")` loop: the enumerated, 1-indexed lines. -/
def enumPrint (l : List Str) : List Str :=
  (List.range l.length).map
    (fun i => '[' :: (natStr (i + 1) ++ '/' :: (natStr l.length ++ ']' :: ' ' :: l.getD i [])))

/-- Lines 195–210 of the source: the errors report, then the fixes report, then
the missing-metadata report, each section omitted when its list is empty. -/
def execute_report (errors fixes not_found : List Str) : List Str :=
  (if errors.length > 0 then
    (pstr "\nProcess finalized with " ++ natStr errors.length ++ pstr " errors:")
      :: enumPrint errors
   else []) ++
  (if fixes.length > 0 then
    (pstr "\nProcess finalized with " ++ natStr fixes.length ++ pstr " fixes:")
      :: enumPrint fixes
   else []) ++
  (if not_found.length > 0 then
    (pstr "\nMetadata not found for " ++ natStr not_found.length ++ pstr " files:")
      :: enumPrint not_found
   else [])

/-- The result of a run: final state, the classification lists, the files still
missing a canonical sidecar, and the printed output lines. -/
structure RunResult where
  st : St
  imageFiles : List Str
  jsonFiles : List Str
  notFound : List Str
  output : List Str
deriving Repr

/-- The source's `execute`: walk, classify, normalize sidecar names, repair and
synthesize per media file, then report. -/
def executeRun (takeout_dir : Str) (fs0 : FS) : RunResult :=
  let st0 : St := { fs := fs0, fixes := [], errors := [] }
  let all_files := fs0.files.map Prod.fst
  let years_files := all_files.filter (fun f => isYearDir (dirnameList f))
  let image_files := years_files.filter (fun f => memB (lowerL (extOf f)) SUPPORTED_IMAGE_EXT)
  let json_files := years_files.filter (fun f => decide (lowerL (extOf f) = pstr ".json"))
  let st1 := json_files.foldl (fun st jf => (fix_divergent_metadata_filename st jf).2) st0
  let st2 := image_files.foldl
    (fun st img => generate_metadata_for_image_file (fix_metadata_file_for_image st img) img) st1
  let not_found := image_files.filter (fun img => !(st2.fs.existsP (metadata_file_for img)))
  { st := st2
  , imageFiles := image_files
  , jsonFiles := json_files
  , notFound := not_found
  , output :=
      [ pstr "Total files found on " ++ takeout_dir ++ pstr ": " ++ natStr all_files.length
      , pstr "Total photos from YYYY dirs found: " ++ natStr years_files.length
      , pstr "Total supported photos formats found: " ++ natStr image_files.length
      , pstr "Total metadata files found: " ++ natStr json_files.length ] ++
      execute_report st2.errors st2.fixes not_found }

/-! ### Toolkit lemmas: prefixes and suffixes -/

theorem isPre_append (a r : Str) : isPre a (a ++ r) = true := by
  induction a with
  | nil => rfl
  | cons c as ih => simp [isPre, ih]

theorem isPre_exists {a l : Str} (h : isPre a l = true) : ∃ t, l = a ++ t := by
  induction a generalizing l with
  | nil => exact ⟨l, rfl⟩
  | cons c as ih =>
    cases l with
    | nil => simp [isPre] at h
    | cons b bs =>
      simp only [isPre, Bool.and_eq_true, decide_eq_true_eq] at h
      obtain ⟨rfl, h2⟩ := h
      obtain ⟨t, rfl⟩ := ih h2
      exact ⟨t, rfl⟩

theorem isPre_len_inj {a b x : Str} (ha : isPre a x = true) (hb : isPre b x = true)
    (hlen : a.length = b.length) : a = b := by
  induction a generalizing b x with
  | nil => cases b with
    | nil => rfl
    | cons _ _ => simp at hlen
  | cons c as ih =>
    cases b with
    | nil => simp at hlen
    | cons d bs =>
      cases x with
      | nil => simp [isPre] at ha
      | cons e xs =>
        simp only [isPre, Bool.and_eq_true, decide_eq_true_eq] at ha hb
        simp only [List.length_cons, Nat.add_right_cancel_iff] at hlen
        rw [ha.1, hb.1, ih ha.2 hb.2 hlen]

theorem endsL_append (p s : Str) : endsL (p ++ s) s = true := by
  unfold endsL
  rw [List.reverse_append]
  exact isPre_append _ _

theorem endsL_refl (s : Str) : endsL s s = true := by
  have := endsL_append [] s
  simpa using this

theorem endsL_exists {l s : Str} (h : endsL l s = true) : ∃ p, l = p ++ s := by
  obtain ⟨t, ht⟩ := isPre_exists h
  refine ⟨t.reverse, ?_⟩
  have := congrArg List.reverse ht
  simpa [List.reverse_append] using this

theorem endsL_mono {l u v : Str} (h : endsL l (u ++ v) = true) : endsL l v = true := by
  obtain ⟨p, rfl⟩ := endsL_exists h
  rw [← List.append_assoc]
  exact endsL_append _ _

theorem endsL_len_inj {l a b : Str} (ha : endsL l a = true) (hb : endsL l b = true)
    (hlen : a.length = b.length) : a = b := by
  have := isPre_len_inj ha hb (by simpa using hlen)
  have h2 := congrArg List.reverse this
  simpa using h2

/-! ### Toolkit lemmas: filesystem access -/

theorem lookupL_append (l₁ l₂ : List (Str × Content)) (p : Str) :
    lookupL (l₁ ++ l₂) p =
      match lookupL l₁ p with
      | some c => some c
      | none => lookupL l₂ p := by
  induction l₁ with
  | nil => simp [lookupL]
  | cons e rest ih =>
    by_cases h : e.1 = p
    · simp [lookupL, h]
    · simp [lookupL, h, ih]

theorem lookupL_filter_ne (l : List (Str × Content)) (p q : Str) (h : q ≠ p) :
    lookupL (l.filter (fun e => !decide (e.1 = p))) q = lookupL l q := by
  induction l with
  | nil => rfl
  | cons e rest ih =>
    by_cases he : e.1 = p
    · have : e.1 ≠ q := by rw [he]; exact fun hc => h hc.symm
      simp [List.filter, he, lookupL, this, Ne.symm h, ih]
    · by_cases heq : e.1 = q
      · simp [List.filter, he, lookupL, heq, h, ih]
      · simp [List.filter, he, lookupL, heq, ih]

theorem lookupL_filter_self (l : List (Str × Content)) (p : Str) :
    lookupL (l.filter (fun e => !decide (e.1 = p))) p = none := by
  induction l with
  | nil => rfl
  | cons e rest ih =>
    by_cases he : e.1 = p
    · simpa [List.filter, he] using ih
    · simp [List.filter, he, lookupL, ih]

theorem readF_write_self (fs : FS) (p : Str) (c : Content) :
    (fs.writeF p c).readF p = some c := by
  unfold FS.writeF FS.readF FS.removeP
  rw [lookupL_append]
  simp [lookupL_filter_self, lookupL]

theorem readF_write_ne (fs : FS) (p q : Str) (c : Content) (h : q ≠ p) :
    (fs.writeF p c).readF q = fs.readF q := by
  unfold FS.writeF FS.readF FS.removeP
  rw [lookupL_append, lookupL_filter_ne _ _ _ h]
  cases hl : lookupL fs.files q with
  | some c' => rfl
  | none => simp [lookupL, Ne.symm h]

theorem readF_remove_ne (fs : FS) (p q : Str) (h : q ≠ p) :
    (fs.removeP p).readF q = fs.readF q := by
  unfold FS.removeP FS.readF
  exact lookupL_filter_ne _ _ _ h

theorem readF_remove_self (fs : FS) (p : Str) :
    (fs.removeP p).readF p = none := by
  unfold FS.removeP FS.readF
  exact lookupL_filter_self _ _

theorem existsP_write_of (fs : FS) (p q : Str) (c : Content)
    (h : fs.existsP q = true) : (fs.writeF p c).existsP q = true := by
  by_cases hq : q = p
  · subst hq; unfold FS.existsP; rw [readF_write_self]; rfl
  · unfold FS.existsP at h ⊢; rw [readF_write_ne _ _ _ _ hq]; exact h

theorem existsP_write_self (fs : FS) (p : Str) (c : Content) :
    (fs.writeF p c).existsP p = true := by
  unfold FS.existsP; rw [readF_write_self]; rfl

theorem existsP_remove_ne (fs : FS) (p q : Str) (h : q ≠ p)
    (hq : fs.existsP q = true) : (fs.removeP p).existsP q = true := by
  unfold FS.existsP at hq ⊢; rwa [readF_remove_ne _ _ _ h]

theorem existsP_some {fs : FS} {p : Str} (h : fs.existsP p = true) :
    ∃ c, fs.readF p = some c := by
  unfold FS.existsP at h
  cases hc : fs.readF p with
  | some c => exact ⟨c, rfl⟩
  | none => rw [hc] at h; simp at h

/-! ### Helper lemmas about the suffix rewriting -/

theorem suppl_not_canonical {j : Str} (h : endsL j (pstr ".suppl.json") = true) :
    endsL j (pstr "supplemental-metadata.json") = false := by
  by_contra hc
  have hc' : endsL j (pstr "supplemental-metadata.json") = true := by
    cases he : endsL j (pstr "supplemental-metadata.json")
    · exact absurd he hc
    · rfl
  have hsplit : pstr "supplemental-metadata.json" = pstr "supplemental-me" ++ pstr "tadata.json" := by
    decide
  have h2 : endsL j (pstr "tadata.json") = true := endsL_mono (hsplit ▸ hc')
  have h3 := endsL_len_inj h h2 (by decide)
  exact absurd h3 (by decide)

theorem subSupplJson_spec {j : Str} (h : endsL j (pstr ".suppl.json") = true) :
    ∃ pre, j = pre ++ pstr ".suppl.json" ∧
      subSupplJson j = pre ++ pstr ".supplemental-metadata.json" := by
  obtain ⟨pre, hj⟩ := endsL_exists h
  refine ⟨pre, hj, ?_⟩
  unfold subSupplJson
  rw [if_pos h]
  have h11 : ((pstr ".suppl.json").reverse).length = 11 := by decide
  rw [hj, List.reverse_append, ← h11, List.drop_left, List.reverse_reverse]

theorem subSupplJson_id {j : Str} (h : endsL j (pstr ".suppl.json") = false) :
    subSupplJson j = j := by
  unfold subSupplJson
  rw [if_neg]
  rw [h]
  simp

theorem subSupplJson_canonical {j : Str} (h : endsL j (pstr ".suppl.json") = true) :
    endsL (subSupplJson j) (pstr "supplemental-metadata.json") = true := by
  obtain ⟨pre, _, hsub⟩ := subSupplJson_spec h
  rw [hsub]
  have hsplit : pstr ".supplemental-metadata.json" = ['.'] ++ pstr "supplemental-metadata.json" := by
    decide
  rw [hsplit, ← List.append_assoc]
  exact endsL_append _ _

theorem subSupplJson_ne {j : Str} (h : endsL j (pstr ".suppl.json") = true) :
    subSupplJson j ≠ j := by
  obtain ⟨pre, hj, hsub⟩ := subSupplJson_spec h
  rw [hsub]
  intro hc
  rw [hj] at hc
  have hlen := congrArg List.length hc
  simp only [List.length_append] at hlen
  have h27 : (pstr ".supplemental-metadata.json").length = 27 := by decide
  have h11 : (pstr ".suppl.json").length = 11 := by decide
  rw [h27, h11] at hlen
  omega

/-! ### Claims C1, C5, C6, C7 -/

/-- An empty run state, used by the concrete witnesses. -/
def emptySt : St := ⟨⟨[]⟩, [], []⟩

/-- C1: for a media filename whose basename matches the `YYYYMMDD_HHMMSS` digit
pattern (leftmost match, as `re.search` finds it), inference returns exactly the
matched date/time when it is calendar-valid; when it is not, inference records
exactly one "Invalid date in filename" error, returns no timestamp, and does not
fall through to any later pattern rule. -/
theorem C1_ymdhms_inference (st : St) (image_file : Str) (y mo d h mi s : Nat)
    (hm : scanL matchP1 (filename_without_ext image_file) = some (y, mo, d, h, mi, s)) :
    (validDT y mo d h mi s 0 = true →
      infer_time_from_image_file st image_file = (some ⟨y, mo, d, h, mi, s, 0⟩, st)) ∧
    (validDT y mo d h mi s 0 = false →
      infer_time_from_image_file st image_file =
        (none, addError st (pstr "Invalid date in filename: " ++ image_file))) := by
  constructor
  · intro hv
    simp only [infer_time_from_image_file, hm, mkDatetime, hv, if_true]
  · intro hv
    simp only [infer_time_from_image_file, hm, mkDatetime, hv]
    simp

/-- Witness for C1: a valid and an invalid concrete filename. -/
theorem C1_ymdhms_inference_witness :
    infer_time_from_image_file emptySt (pstr "20210529_155539.jpg")
      = (some ⟨2021, 5, 29, 15, 55, 39, 0⟩, emptySt) ∧
    infer_time_from_image_file emptySt (pstr "20211340_250000.jpg")
      = (none, addError emptySt (pstr "Invalid date in filename: " ++ pstr "20211340_250000.jpg")) :=
  ⟨(C1_ymdhms_inference emptySt (pstr "20210529_155539.jpg") 2021 5 29 15 55 39
      (by decide)).1 (by decide),
   (C1_ymdhms_inference emptySt (pstr "20211340_250000.jpg") 2021 13 40 25 0 0
      (by decide)).2 (by decide)⟩

/-- C5: a sidecar name ending in `.suppl.json` is renamed to one ending in
`.supplemental-metadata.json` (the old path disappears from the filesystem, the
new one appears); normalization is idempotent on its own output; and a name not
ending in `.suppl.json` (in particular one matching neither recognized suffix)
is left untouched. -/
theorem C5_suppl_normalization (st : St) (j : Str) :
    (endsL j (pstr ".suppl.json") = true →
      endsL (fix_divergent_metadata_filename st j).1 (pstr "supplemental-metadata.json") = true ∧
      (st.fs.existsP j = true →
        (fix_divergent_metadata_filename st j).2.fs.existsP
          (fix_divergent_metadata_filename st j).1 = true ∧
        (fix_divergent_metadata_filename st j).2.fs.existsP j = false)) ∧
    fix_divergent_metadata_filename (fix_divergent_metadata_filename st j).2
      (fix_divergent_metadata_filename st j).1 = fix_divergent_metadata_filename st j ∧
    (endsL j (pstr ".suppl.json") = false → fix_divergent_metadata_filename st j = (j, st)) := by
  have main : ∀ st' : St, endsL j (pstr ".suppl.json") = true →
      fix_divergent_metadata_filename st' j = (subSupplJson j, move_file st' j (subSupplJson j)) := by
    intro st' h
    simp only [fix_divergent_metadata_filename, suppl_not_canonical h]
    simp only [Bool.false_eq_true, if_false]
    rw [if_neg (subSupplJson_ne h)]
  have untouched : ∀ st' : St, endsL j (pstr ".suppl.json") = false →
      fix_divergent_metadata_filename st' j = (j, st') := by
    intro st' h
    by_cases h1 : endsL j (pstr "supplemental-metadata.json") = true
    · simp only [fix_divergent_metadata_filename, h1, if_true]
    · simp only [fix_divergent_metadata_filename]
      rw [if_neg h1, subSupplJson_id h, if_pos rfl]
  refine ⟨?_, ?_, untouched st⟩
  · intro h
    rw [main st h]
    refine ⟨subSupplJson_canonical h, ?_⟩
    intro hx
    obtain ⟨c, hc⟩ := existsP_some hx
    simp only [move_file, hc, addFix]
    constructor
    · exact existsP_write_self _ _ _
    · unfold FS.existsP
      rw [readF_write_ne _ _ _ _ (Ne.symm (subSupplJson_ne h)), readF_remove_self]
      rfl
  · by_cases h : endsL j (pstr ".suppl.json") = true
    · rw [main st h]
      simp only [fix_divergent_metadata_filename, subSupplJson_canonical h, if_true]
    · have h' : endsL j (pstr ".suppl.json") = false := by
        cases he : endsL j (pstr ".suppl.json")
        · rfl
        · exact absurd he h
      rw [untouched st h', untouched st h']

/-- Witness for C5 at a concrete sidecar. -/
theorem C5_suppl_normalization_witness :
    endsL (fix_divergent_metadata_filename ⟨⟨[(pstr "Photos from 2020/a.suppl.json", Content.raw [])]⟩, [], []⟩
        (pstr "Photos from 2020/a.suppl.json")).1 (pstr "supplemental-metadata.json") = true ∧
    (fix_divergent_metadata_filename ⟨⟨[(pstr "Photos from 2020/a.suppl.json", Content.raw [])]⟩, [], []⟩
        (pstr "Photos from 2020/a.suppl.json")).2.fs.existsP
      (fix_divergent_metadata_filename ⟨⟨[(pstr "Photos from 2020/a.suppl.json", Content.raw [])]⟩, [], []⟩
        (pstr "Photos from 2020/a.suppl.json")).1 = true ∧
    (fix_divergent_metadata_filename ⟨⟨[(pstr "Photos from 2020/a.suppl.json", Content.raw [])]⟩, [], []⟩
        (pstr "Photos from 2020/a.suppl.json")).2.fs.existsP
      (pstr "Photos from 2020/a.suppl.json") = false := by
  have h := C5_suppl_normalization
    ⟨⟨[(pstr "Photos from 2020/a.suppl.json", Content.raw [])]⟩, [], []⟩
    (pstr "Photos from 2020/a.suppl.json")
  exact ⟨(h.1 (by decide)).1, ((h.1 (by decide)).2 (by decide)).1, ((h.1 (by decide)).2 (by decide)).2⟩

/-- C6: when a sidecar already exists at the canonical path, synthesis is a
no-op — the whole run state (filesystem contents, fixes, errors) is unchanged. -/
theorem C6_synthesis_skip (st : St) (image_file : Str)
    (h : st.fs.existsP (metadata_file_for image_file) = true) :
    generate_metadata_for_image_file st image_file = st := by
  simp only [generate_metadata_for_image_file, h, if_true]

/-- Witness for C6 at a concrete state with a pre-existing canonical sidecar. -/
theorem C6_synthesis_skip_witness :
    generate_metadata_for_image_file
      ⟨⟨[(pstr "Photos from 2020/a.jpg.supplemental-metadata.json", Content.raw [])]⟩, [], []⟩
      (pstr "Photos from 2020/a.jpg")
    = ⟨⟨[(pstr "Photos from 2020/a.jpg.supplemental-metadata.json", Content.raw [])]⟩, [], []⟩ :=
  C6_synthesis_skip _ (pstr "Photos from 2020/a.jpg") (by decide)

/-- C7: a synthesized sidecar is written at the canonical path
`<media-filename-with-extension>.supplemental-metadata.json`, and its record has
title equal to the original media filename, imageViews the literal "1", and
creationTime equal to photoTakenTime, both the inferred timestamp as an
epoch-seconds string plus a formatted string. -/
theorem C7_sidecar_record (st : St) (image_file : Str) (t : PyDateTime)
    (hne : st.fs.existsP (metadata_file_for image_file) = false)
    (hinf : (infer_time_from_image_file st image_file).1 = some t) :
    (generate_metadata_for_image_file st image_file).fs.readF (metadata_file_for image_file)
      = some (Content.json (jsonContentFor image_file t)) ∧
    (jsonContentFor image_file t).title = basenameList image_file ∧
    (jsonContentFor image_file t).imageViews = pstr "1" ∧
    (jsonContentFor image_file t).creationTime = (jsonContentFor image_file t).photoTakenTime ∧
    (jsonContentFor image_file t).photoTakenTime
      = ⟨intStr (pyIntTimestamp t), pyStr t⟩ ∧
    metadata_file_for image_file = image_file ++ pstr ".supplemental-metadata.json" := by
  refine ⟨?_, rfl, rfl, rfl, rfl, rfl⟩
  simp only [generate_metadata_for_image_file, hne]
  simp only [Bool.false_eq_true, if_false]
  rcases hE : infer_time_from_image_file st image_file with ⟨o, st'⟩
  rw [hE] at hinf
  simp only at hinf
  subst hinf
  simp only [write_file, addFix]
  exact readF_write_self _ _ _

/-- Witness for C7 at a concrete media file. -/
theorem C7_sidecar_record_witness :
    (generate_metadata_for_image_file emptySt (pstr "Photos from 2019/20210529_155539.jpg")).fs.readF
        (metadata_file_for (pstr "Photos from 2019/20210529_155539.jpg"))
      = some (Content.json (jsonContentFor (pstr "Photos from 2019/20210529_155539.jpg")
          ⟨2021, 5, 29, 15, 55, 39, 0⟩)) ∧
    (jsonContentFor (pstr "Photos from 2019/20210529_155539.jpg") ⟨2021, 5, 29, 15, 55, 39, 0⟩).title
      = basenameList (pstr "Photos from 2019/20210529_155539.jpg") :=
  ⟨(C7_sidecar_record emptySt (pstr "Photos from 2019/20210529_155539.jpg")
      ⟨2021, 5, 29, 15, 55, 39, 0⟩ (by decide) (by decide)).1,
   (C7_sidecar_record emptySt (pstr "Photos from 2019/20210529_155539.jpg")
      ⟨2021, 5, 29, 15, 55, 39, 0⟩ (by decide) (by decide)).2.1⟩

/-! ### Claims C2 and C3 -/

/-- The single-file tree of the C2 end-to-end scenario. -/
def fsC2 : FS := ⟨[(pstr "Photos from 2019/CameraZOOM-20131224200623261.jpg", Content.raw [])]⟩

/-- C2: with no earlier-rule match, a 17-digit contiguous run (leftmost match)
yields the date/time of its first 14 digits with the last 3 digits as
milliseconds; and end-to-end, a run over `Photos from 2019/` containing
`CameraZOOM-20131224200623261.jpg` with no sidecar synthesizes a sidecar whose
photoTakenTime is 2013-12-24 20:06:23.261, and leaves that file out of the
unresolved list. -/
theorem C2_seventeen_digit_run :
    (∀ (st : St) (image_file : Str) (y mo d h mi s ms : Nat),
      scanL matchP1 (filename_without_ext image_file) = none →
      scanL matchP2 (filename_without_ext image_file) = some ⟨y, mo, d, h, mi, s, ms⟩ →
      validDT y mo d h mi s (ms * 1000) = true →
      infer_time_from_image_file st image_file = (some ⟨y, mo, d, h, mi, s, ms * 1000⟩, st)) ∧
    ((executeRun (pstr "takeout") fsC2).st.fs.readF
        (pstr "Photos from 2019/CameraZOOM-20131224200623261.jpg.supplemental-metadata.json")
      = some (Content.json (jsonContentFor (pstr "Photos from 2019/CameraZOOM-20131224200623261.jpg")
          ⟨2013, 12, 24, 20, 6, 23, 261000⟩)) ∧
     (jsonContentFor (pstr "Photos from 2019/CameraZOOM-20131224200623261.jpg")
        ⟨2013, 12, 24, 20, 6, 23, 261000⟩).photoTakenTime.formatted
      = pstr "2013-12-24 20:06:23.261000" ∧
     (executeRun (pstr "takeout") fsC2).notFound = []) := by
  constructor
  · intro st image_file y mo d h mi s ms h1 h2 hv
    simp only [infer_time_from_image_file, h1, h2, mkDatetime, hv, if_true]
  · exact ⟨by decide, by decide, by decide⟩

/-- Witness for C2's quantified part at the scenario's filename. -/
theorem C2_seventeen_digit_run_witness :
    infer_time_from_image_file emptySt (pstr "CameraZOOM-20131224200623261.jpg")
      = (some ⟨2013, 12, 24, 20, 6, 23, 261000⟩, emptySt) :=
  C2_seventeen_digit_run.1 emptySt (pstr "CameraZOOM-20131224200623261.jpg")
    2013 12 24 20 6 23 261 (by decide) (by decide) (by decide)

/-- The tree of the claimed C3 scenario: the sidecar sits at the name the claim
says the export tool produces (`IMG_01.supplemental-metadata(2).json`). -/
def fsC3 : FS := ⟨[(pstr "Photos from 2021/IMG_01(2).jpg", Content.raw []),
                   (pstr "Photos from 2021/IMG_01.supplemental-metadata(2).json", Content.raw [])]⟩

/-- C3 counterexample: with the sidecar at `IMG_01.supplemental-metadata(2).json`
(as the claim states), repair does NOT move it — the code looks for
`IMG_01.jpg.supplemental-metadata(2).json` (media extension retained), so after
repair no canonical sidecar exists, the wrongly-placed file is still there, and
a "not exist" error is recorded instead. -/
theorem C3_wrong_placement_counterexample :
    (fix_metadata_file_for_image ⟨fsC3, [], []⟩ (pstr "Photos from 2021/IMG_01(2).jpg")).fs.existsP
      (pstr "Photos from 2021/IMG_01(2).jpg.supplemental-metadata.json") = false ∧
    (fix_metadata_file_for_image ⟨fsC3, [], []⟩ (pstr "Photos from 2021/IMG_01(2).jpg")).fs.existsP
      (pstr "Photos from 2021/IMG_01.supplemental-metadata(2).json") = true ∧
    (fix_metadata_file_for_image ⟨fsC3, [], []⟩ (pstr "Photos from 2021/IMG_01(2).jpg")).errors
      = [pstr "Metadata file: Photos from 2021/IMG_01.jpg.supplemental-metadata(2).json not exist for image: Photos from 2021/IMG_01(2).jpg"] := by
  decide

/-- The amended C3 scenario: the wrongly-placed sidecar keeps the media
extension before the suffix, as the code expects. -/
def fsC3a : FS := ⟨[(pstr "Photos from 2021/IMG_01(2).jpg", Content.raw []),
                    (pstr "Photos from 2021/IMG_01.jpg.supplemental-metadata(2).json",
                      Content.raw (pstr "meta"))]⟩

/-- The amended C3 collision scenario: a sidecar already occupies the canonical name. -/
def fsC3b : FS := ⟨fsC3a.files ++
  [(pstr "Photos from 2021/IMG_01(2).jpg.supplemental-metadata.json", Content.raw (pstr "old"))]⟩

/-- C3 amended: for media `IMG_01(2).jpg` with the sidecar at
`IMG_01.jpg.supplemental-metadata(2).json`, repair moves it to
`IMG_01(2).jpg.supplemental-metadata.json` (same content) and the wrongly-placed
path no longer exists; when a sidecar already occupies the canonical name, an
error is recorded and the filesystem is left entirely untouched. -/
theorem C3_numbered_duplicate_repair :
    ((fix_metadata_file_for_image ⟨fsC3a, [], []⟩ (pstr "Photos from 2021/IMG_01(2).jpg")).fs.readF
        (pstr "Photos from 2021/IMG_01(2).jpg.supplemental-metadata.json")
      = some (Content.raw (pstr "meta")) ∧
     (fix_metadata_file_for_image ⟨fsC3a, [], []⟩ (pstr "Photos from 2021/IMG_01(2).jpg")).fs.existsP
        (pstr "Photos from 2021/IMG_01.jpg.supplemental-metadata(2).json") = false) ∧
    ((fix_metadata_file_for_image ⟨fsC3b, [], []⟩ (pstr "Photos from 2021/IMG_01(2).jpg")).fs
        = fsC3b ∧
     (fix_metadata_file_for_image ⟨fsC3b, [], []⟩ (pstr "Photos from 2021/IMG_01(2).jpg")).errors
        = [pstr "Metadata file already exist: Photos from 2021/IMG_01(2).jpg.supplemental-metadata.json"]) := by
  decide

/-! ### Claim C9 -/

/-- C9 counterexample: with one error and one fix recorded, the first report
line is the errors header, not the fixes header — the code prints the errors
report before the fixes report, while the claim says fixes come first.  The
claimed fixes-first output is spelled out and shown unequal to the actual one. -/
theorem C9_report_order_counterexample :
    (execute_report [pstr "e1"] [pstr "f1"] []).head?
      = some (pstr "\nProcess finalized with 1 errors:") ∧
    execute_report [pstr "e1"] [pstr "f1"] []
      ≠ [pstr "\nProcess finalized with 1 fixes:", pstr "[1/1] f1",
         pstr "\nProcess finalized with 1 errors:", pstr "[1/1] e1"] := by
  decide

/-- C9 amended: after processing, the run emits the errors report first, then
the fixes report, then the missing-metadata report (the three sections simply
concatenate in that order); each section is an enumerated, 1-indexed list; an
empty list contributes no output section, and reporting is a total function. -/
theorem C9_report_sections (errors fixes not_found : List Str) :
    execute_report errors fixes not_found =
      execute_report errors [] [] ++ execute_report [] fixes [] ++
        execute_report [] [] not_found ∧
    execute_report [] [] [] = [] ∧
    (errors = [] → execute_report errors [] [] = []) ∧
    (∀ (l : List Str) (i : Nat), i < l.length →
      (enumPrint l).get? i
        = some ('[' :: (natStr (i + 1) ++ '/' :: (natStr l.length ++ ']' :: ' ' :: l.getD i [])))) := by
  refine ⟨?_, rfl, ?_, ?_⟩
  · simp [execute_report]
  · intro h; subst h; rfl
  · intro l i hi
    unfold enumPrint
    rw [List.get?_map, List.get?_range hi]
    rfl

/-- Witness for C9's amended theorem at concrete report lists. -/
theorem C9_report_sections_witness :
    execute_report [pstr "e1"] [pstr "f1"] [pstr "n1"] =
      execute_report [pstr "e1"] [] [] ++ execute_report [] [pstr "f1"] [] ++
        execute_report [] [] [pstr "n1"] ∧
    (enumPrint [pstr "a", pstr "b"]).get? 1
      = some ('[' :: (natStr 2 ++ '/' :: (natStr 2 ++ ']' :: ' ' ::
          [pstr "a", pstr "b"].getD 1 []))) :=
  ⟨(C9_report_sections [pstr "e1"] [pstr "f1"] [pstr "n1"]).1,
   (C9_report_sections [] [] []).2.2.2 [pstr "a", pstr "b"] 1 (by decide)⟩

/-! ### Helper lemmas for the per-media repair rules -/

theorem pathJoin_endsL (a b : Str) : endsL (pathJoin a b) b = true := by
  unfold pathJoin
  by_cases h1 : isPre ['/'] b = true
  · rw [if_pos h1]; exact endsL_refl b
  · rw [if_neg (by simpa using h1)]
    by_cases h2 : a.isEmpty = true
    · rw [if_pos h2]; exact endsL_refl b
    · rw [if_neg (by simpa using h2)]
      by_cases h3 : endsL a ['/'] = true
      · rw [if_pos h3]; exact endsL_append a b
      · rw [if_neg (by simpa using h3)]
        rw [show a ++ '/' :: b = (a ++ ['/']) ++ b by simp]
        exact endsL_append _ _

theorem trailingParen_shape {s num : Str} (h : trailingParen s = some num) :
    ∃ ds : Str, num = '(' :: (ds ++ [')']) ∧ ds ≠ [] ∧ ∀ c ∈ ds, c.isDigit = true := by
  unfold trailingParen at h
  cases hs : s.reverse with
  | nil => rw [hs] at h; exact absurd h (by simp)
  | cons c rest =>
    rw [hs] at h
    dsimp only at h
    by_cases hc : c = ')'
    · rw [if_pos hc] at h
      rcases hspan : rest.span Char.isDigit with ⟨ds, rest2⟩
      rw [hspan] at h
      cases rest2 with
      | nil => exact absurd h (by simp)
      | cons c2 tl =>
        dsimp only at h
        by_cases hc2 : c2 = '(' ∧ ds ≠ []
        · rw [if_pos hc2] at h
          refine ⟨ds.reverse, by simpa using h.symm, by simpa using hc2.2, ?_⟩
          intro x hx
          have hxd : x ∈ ds := by simpa using hx
          have h' := hspan
          rw [List.span_eq_take_drop] at h'
          have hds : ds = rest.takeWhile Char.isDigit := by
            have := congrArg Prod.fst h'
            simpa using this.symm
          rw [hds] at hxd
          exact List.mem_takeWhile_imp hxd
        · rw [if_neg hc2] at h; exact absurd h (by simp)
    · rw [if_neg hc] at h; exact absurd h (by simp)

theorem canonical_endsL (x : Str) :
    endsL (x ++ pstr ".supplemental-metadata.json") (pstr "supplemental-metadata.json") = true := by
  have hsplit : pstr ".supplemental-metadata.json" = '.' :: pstr "supplemental-metadata.json" := by
    decide
  rw [hsplit, show x ++ '.' :: pstr "supplemental-metadata.json"
      = (x ++ ['.']) ++ pstr "supplemental-metadata.json" by simp]
  exact endsL_append _ _

theorem wrong_name_endsParen (d fwn : Str) {num ds : Str} (hnum : num = '(' :: (ds ++ [')'])) :
    endsL (pathJoin d (fwn ++ pstr ".supplemental-metadata" ++ num ++ pstr ".json"))
      (pstr ").json") = true := by
  have h := pathJoin_endsL d (fwn ++ pstr ".supplemental-metadata" ++ num ++ pstr ".json")
  obtain ⟨p, hp⟩ := endsL_exists h
  rw [hp, hnum]
  have hpj : pstr ").json" = ')' :: pstr ".json" := by decide
  rw [show p ++ (fwn ++ pstr ".supplemental-metadata" ++ '(' :: (ds ++ [')']) ++ pstr ".json")
      = (p ++ (fwn ++ pstr ".supplemental-metadata" ++ '(' :: ds)) ++ (')' :: pstr ".json") by
    simp]
  rw [← hpj]
  exact endsL_append _ _

theorem not_canonical_of_paren {t : Str} (h : endsL t (pstr ").json") = true) :
    endsL t (pstr "supplemental-metadata.json") = false := by
  cases hc : endsL t (pstr "supplemental-metadata.json")
  · rfl
  · exfalso
    have hsplit : pstr "supplemental-metadata.json"
        = pstr "supplemental-metadat" ++ pstr "a.json" := by decide
    have h2 : endsL t (pstr "a.json") = true := endsL_mono (hsplit ▸ hc)
    have h3 := endsL_len_inj h h2 (by decide)
    exact absurd h3 (by decide)

theorem ne_of_canonical_paren {a w : Str}
    (ha : endsL a (pstr "supplemental-metadata.json") = true)
    (hw : endsL w (pstr ").json") = true) : a ≠ w := by
  intro h
  rw [h, not_canonical_of_paren hw] at ha
  exact absurd ha (by simp)

theorem existsP_copy_other (st : St) (s d p : Str)
    (h : st.fs.existsP p = true) : (copy_file st s d).fs.existsP p = true := by
  unfold copy_file
  cases hc : st.fs.readF s with
  | none => exact h
  | some c =>
    simp only [addFix]
    exact existsP_write_of _ _ _ _ h

theorem existsP_move_other (st : St) (s d p : Str) (hps : p ≠ s)
    (h : st.fs.existsP p = true) : (move_file st s d).fs.existsP p = true := by
  unfold move_file
  cases hc : st.fs.readF s with
  | none => exact h
  | some c =>
    simp only [addFix]
    exact existsP_write_of _ _ _ _ (existsP_remove_ne _ _ _ hps h)

/-- The numbered-duplicate step never disturbs an existing file whose name ends
with the canonical suffix: the only path it removes ends in `(N).json`. -/
theorem numbered_step_preserves (st : St) (img p : Str)
    (hp : endsL p (pstr "supplemental-metadata.json") = true)
    (h : st.fs.existsP p = true) :
    (numbered_step st img).fs.existsP p = true := by
  unfold numbered_step
  cases htp : trailingParen (filename_without_ext img) with
  | none => exact h
  | some num =>
    obtain ⟨ds, hnum, _, _⟩ := trailingParen_shape htp
    simp only
    split
    · split
      · exact h
      · refine existsP_move_other _ _ _ _ ?_ h
        exact ne_of_canonical_paren hp (wrong_name_endsParen _ _ hnum)
    · exact h

/-! ### Replacement-length lemmas (for C4) -/

theorem replaceFuel_nil_length_le (n : Str) :
    ∀ (fuel : Nat) (l : Str), (replaceFuel n [] fuel l).length ≤ l.length := by
  intro fuel
  induction fuel with
  | zero => intro l; cases l <;> simp [replaceFuel]
  | succ k ih =>
    intro l
    cases l with
    | nil => simp [replaceFuel]
    | cons c rest =>
      by_cases hb : n ≠ [] ∧ isPre n (c :: rest) = true
      · rw [replaceFuel, if_pos hb]
        have h1 := ih ((c :: rest).drop n.length)
        have h2 : ((c :: rest).drop n.length).length ≤ (c :: rest).length := by
          simp [List.length_drop]
        simpa using le_trans h1 h2
      · rw [replaceFuel, if_neg hb]
        have := ih rest
        simpa using Nat.succ_le_succ this

theorem replaceFuel_nil_shrink (n : Str) (hn : n ≠ []) :
    ∀ (fuel : Nat) (l : Str), l.length ≤ fuel → containsSub n l = true →
      (replaceFuel n [] fuel l).length < l.length := by
  intro fuel
  induction fuel with
  | zero =>
    intro l hl hc
    interval_cases hlen : l.length
    · have : l = [] := List.length_eq_zero.mp hlen
      subst this
      simp only [containsSub, List.isEmpty_iff] at hc
      exact absurd hc hn
  | succ k ih =>
    intro l hl hc
    cases l with
    | nil =>
      simp only [containsSub, List.isEmpty_iff] at hc
      exact absurd hc hn
    | cons c rest =>
      by_cases hb : n ≠ [] ∧ isPre n (c :: rest) = true
      · rw [replaceFuel, if_pos hb]
        have h1 := replaceFuel_nil_length_le n k ((c :: rest).drop n.length)
        have hn1 : 1 ≤ n.length := List.length_pos.mpr hn
        have h2 : ((c :: rest).drop n.length).length < (c :: rest).length := by
          simp only [List.length_drop, List.length_cons]
          omega
        simpa using lt_of_le_of_lt h1 h2
      · rw [replaceFuel, if_neg hb]
        have hpre : isPre n (c :: rest) = false := by
          by_contra hpc
          exact hb ⟨hn, by cases hx : isPre n (c :: rest) with
            | true => rfl
            | false => exact absurd hx hpc⟩
        have hcr : containsSub n rest = true := by
          have : isPre n (c :: rest) || containsSub n rest = true := by
            simpa [containsSub] using hc
          simpa [hpre] using this
        have hrl : rest.length ≤ k := by
          have : (c :: rest).length ≤ k + 1 := hl
          simpa using this
        have := ih rest hrl hcr
        simp only [List.length_cons]
        omega

theorem replaceList_shrink {n l : Str} (hn : n ≠ []) (hc : containsSub n l = true) :
    (replaceList n [] l).length < l.length :=
  replaceFuel_nil_shrink n hn l.length l le_rfl hc

/-! ### Claim C4 -/

/-- C4: for a media path containing the `-editada` marker whose marker-stripped
counterpart has a sidecar at its canonical name, repair copies that sidecar to
the edited file's canonical sidecar name, and afterwards both the edited file's
sidecar and the original file's sidecar exist. -/
theorem C4_edited_variant_copy (st : St) (image_file : Str)
    (hed : containsSub (pstr "-editada") image_file = true)
    (hmeta : st.fs.existsP (replaceList (pstr "-editada") [] image_file
      ++ pstr ".supplemental-metadata.json") = true) :
    (fix_metadata_file_for_image st image_file).fs.existsP
      (image_file ++ pstr ".supplemental-metadata.json") = true ∧
    (fix_metadata_file_for_image st image_file).fs.existsP
      (replaceList (pstr "-editada") [] image_file ++ pstr ".supplemental-metadata.json")
      = true := by
  have hne : image_file ++ pstr ".supplemental-metadata.json"
      ≠ replaceList (pstr "-editada") [] image_file ++ pstr ".supplemental-metadata.json" := by
    intro h
    have hlen := congrArg List.length h
    simp only [List.length_append] at hlen
    have := replaceList_shrink (n := pstr "-editada") (l := image_file) (by decide) hed
    omega
  have hst1 : editada_step st image_file
      = copy_file st (replaceList (pstr "-editada") [] image_file
          ++ pstr ".supplemental-metadata.json")
          (image_file ++ pstr ".supplemental-metadata.json") := by
    unfold editada_step
    rw [if_pos hed, if_pos hmeta]
  obtain ⟨c, hc⟩ := existsP_some hmeta
  have hem : (editada_step st image_file).fs.existsP
      (image_file ++ pstr ".supplemental-metadata.json") = true := by
    rw [hst1]
    unfold copy_file
    rw [hc]
    simp only [addFix]
    exact existsP_write_self _ _ _
  have hom : (editada_step st image_file).fs.existsP
      (replaceList (pstr "-editada") [] image_file ++ pstr ".supplemental-metadata.json")
      = true := by
    rw [hst1]
    unfold copy_file
    rw [hc]
    simp only [addFix]
    unfold FS.existsP
    rw [readF_write_ne _ _ _ _ (Ne.symm hne)]
    exact hmeta
  unfold fix_metadata_file_for_image
  exact ⟨numbered_step_preserves _ _ _ (canonical_endsL _) hem,
         numbered_step_preserves _ _ _ (canonical_endsL _) hom⟩

/-- Witness for C4 at a concrete edited media file. -/
theorem C4_edited_variant_copy_witness :
    (fix_metadata_file_for_image
        ⟨⟨[(pstr "Photos from 2020/IMG_02-editada.jpg", Content.raw []),
           (pstr "Photos from 2020/IMG_02.jpg.supplemental-metadata.json", Content.raw [])]⟩, [], []⟩
        (pstr "Photos from 2020/IMG_02-editada.jpg")).fs.existsP
      (pstr "Photos from 2020/IMG_02-editada.jpg" ++ pstr ".supplemental-metadata.json") = true ∧
    (fix_metadata_file_for_image
        ⟨⟨[(pstr "Photos from 2020/IMG_02-editada.jpg", Content.raw []),
           (pstr "Photos from 2020/IMG_02.jpg.supplemental-metadata.json", Content.raw [])]⟩, [], []⟩
        (pstr "Photos from 2020/IMG_02-editada.jpg")).fs.existsP
      (replaceList (pstr "-editada") [] (pstr "Photos from 2020/IMG_02-editada.jpg")
        ++ pstr ".supplemental-metadata.json") = true :=
  C4_edited_variant_copy
    ⟨⟨[(pstr "Photos from 2020/IMG_02-editada.jpg", Content.raw []),
       (pstr "Photos from 2020/IMG_02.jpg.supplemental-metadata.json", Content.raw [])]⟩, [], []⟩
    (pstr "Photos from 2020/IMG_02-editada.jpg") (by decide) (by decide)

/-! ### Slash-freedom and dirname lemmas (for C8) -/

theorem isDigit_ne_slash {c : Char} (h : c.isDigit = true) : c ≠ '/' := by
  intro hc
  rw [hc] at h
  exact absurd h (by decide)

theorem mem_basename_ne_slash {c : Char} {x : Str} (h : c ∈ basenameList x) : c ≠ '/' := by
  unfold basenameList at h
  rw [List.mem_reverse] at h
  have := List.mem_takeWhile_imp h
  exact of_decide_eq_true this

theorem mem_replaceFuel {c : Char} (n r : Str) :
    ∀ (fuel : Nat) (l : Str), c ∈ replaceFuel n r fuel l → c ∈ r ∨ c ∈ l := by
  intro fuel
  induction fuel with
  | zero =>
    intro l h
    cases l with
    | nil => simp [replaceFuel] at h
    | cons a rest => right; simpa [replaceFuel] using h
  | succ k ih =>
    intro l h
    cases l with
    | nil => simp [replaceFuel] at h
    | cons a rest =>
      by_cases hb : n ≠ [] ∧ isPre n (a :: rest) = true
      · rw [replaceFuel, if_pos hb] at h
        rcases List.mem_append.mp h with h1 | h2
        · exact Or.inl h1
        · rcases ih _ h2 with h3 | h4
          · exact Or.inl h3
          · exact Or.inr (List.drop_subset _ _ h4)
      · rw [replaceFuel, if_neg hb] at h
        rcases List.mem_cons.mp h with h1 | h2
        · exact Or.inr (h1 ▸ List.mem_cons_self _ _)
        · rcases ih _ h2 with h3 | h4
          · exact Or.inl h3
          · exact Or.inr (List.mem_cons_of_mem _ h4)

theorem mem_replaceList {c : Char} {n r l : Str} (h : c ∈ replaceList n r l) :
    c ∈ r ∨ c ∈ l := mem_replaceFuel n r l.length l h

theorem mem_rsplitRejoin {c : Char} {x : Str} (h : c ∈ rsplitRejoin x) :
    c ∈ x ∨ c = '.' := by
  unfold rsplitRejoin at h
  rcases hspan : x.reverse.span (fun c => decide (c ≠ '.')) with ⟨afterRev, rest⟩
  have hspan' := hspan
  rw [List.span_eq_take_drop] at hspan'
  have hafter : afterRev = x.reverse.takeWhile (fun c => decide (c ≠ '.')) := by
    have := congrArg Prod.fst hspan'
    simpa using this.symm
  have hrest : rest = x.reverse.dropWhile (fun c => decide (c ≠ '.')) := by
    have := congrArg Prod.snd hspan'
    simpa using this.symm
  rw [hspan] at h
  cases rest with
  | nil => exact Or.inl h
  | cons dot beforeRev =>
    dsimp only at h
    have hsubB : beforeRev ⊆ x.reverse := by
      intro a ha
      have : a ∈ dot :: beforeRev := List.mem_cons_of_mem _ ha
      rw [hrest] at this
      exact (List.dropWhile_sublist _).subset this
    have hsubA : afterRev ⊆ x.reverse := by
      rw [hafter]
      exact (List.takeWhile_sublist _).subset
    rcases List.mem_append.mp h with h1 | h2
    · exact Or.inl (List.mem_reverse.mp (hsubB (List.mem_reverse.mp h1)))
    · rcases List.mem_cons.mp h2 with h3 | h4
      · exact Or.inr h3
      · exact Or.inl (List.mem_reverse.mp (hsubA (List.mem_reverse.mp h4)))

theorem dropWhile_append_all {p : Char → Bool} {l1 : Str} (l2 : Str)
    (h : ∀ c ∈ l1, p c = true) : (l1 ++ l2).dropWhile p = l2.dropWhile p := by
  induction l1 with
  | nil => rfl
  | cons c r ih => simp [List.dropWhile, h c (by simp), ih (fun x hx => h x (by simp [hx]))]

theorem dirnameList_append_noslash (x y : Str) (hy : ∀ c ∈ y, c ≠ '/') :
    dirnameList (x ++ y) = dirnameList x := by
  unfold dirnameList
  rw [List.reverse_append]
  rw [dropWhile_append_all x.reverse (fun c hc => by
    rw [List.mem_reverse] at hc
    exact decide_eq_true (hy c hc))]

theorem isYearDir_last_digit {d : Str} (h : isYearDir d = true) :
    ∃ c r, d.reverse = c :: r ∧ c.isDigit = true := by
  unfold isYearDir at h
  rcases hspan : d.reverse.span Char.isDigit with ⟨ds, rest⟩
  rw [hspan] at h
  simp only [Bool.and_eq_true, Bool.not_eq_true'] at h
  have hds : ds = d.reverse.takeWhile Char.isDigit := by
    have hspan' := hspan
    rw [List.span_eq_take_drop] at hspan'
    have := congrArg Prod.fst hspan'
    simpa using this.symm
  cases hd : d.reverse with
  | nil =>
    exfalso
    rw [hds, hd] at h
    simp [List.takeWhile] at h
  | cons c r =>
    refine ⟨c, r, rfl, ?_⟩
    by_contra hc
    have hc' : c.isDigit = false := by
      cases hx : c.isDigit
      · rfl
      · exact absurd hx hc
    rw [hds, hd] at h
    simp [List.takeWhile, hc'] at h

theorem dirnameList_pathJoin_year {d n : Str} (hy : isYearDir d = true)
    (hn : ∀ c ∈ n, c ≠ '/') : dirnameList (pathJoin d n) = d := by
  obtain ⟨c, r, hd, hcd⟩ := isYearDir_last_digit hy
  have hcs : c ≠ '/' := isDigit_ne_slash hcd
  have hjoin : pathJoin d n = d ++ '/' :: n := by
    unfold pathJoin
    have h1 : isPre ['/'] n = false := by
      cases n with
      | nil => rfl
      | cons a tl =>
        have : a ≠ '/' := hn a (List.mem_cons_self _ _)
        simp [isPre, Ne.symm this]
    have h2 : d.isEmpty = false := by
      cases hdd : d with
      | nil => rw [hdd] at hd; simp at hd
      | cons _ _ => rfl
    have h3 : endsL d ['/'] = false := by
      unfold endsL
      rw [hd]
      simp [isPre, Ne.symm hcs]
    rw [h1, h2, h3]
    simp
  rw [hjoin]
  unfold dirnameList
  rw [List.reverse_append]
  have hrev : ('/' :: n).reverse = n.reverse ++ ['/'] := by simp
  rw [hrev, List.append_assoc]
  rw [dropWhile_append_all _ (fun x hx => by
    rw [List.mem_reverse] at hx
    exact decide_eq_true (hn x hx))]
  have hstep : (['/'] ++ d.reverse).dropWhile (fun c => decide (c ≠ '/')) = '/' :: d.reverse := by
    simp [List.dropWhile]
  rw [hstep]
  unfold dirAux
  have hall : ('/' :: d.reverse).all (fun c => decide (c = '/')) = false := by
    rw [hd]
    simp [List.all_cons, hcs]
  simp only [List.isEmpty_cons, hall, Bool.false_eq_true, if_false]
  rw [hd]
  have hdrop : ('/' :: c :: r).dropWhile (fun x => decide (x = '/')) = c :: r := by
    simp [List.dropWhile, hcs]
  rw [hdrop, ← hd, List.reverse_reverse]

/-- Two paths with different year-dir status on their dirnames are distinct. -/
theorem ne_of_yeardir_mismatch {p t : Str}
    (hp : isYearDir (dirnameList p) = false) (ht : isYearDir (dirnameList t) = true) :
    p ≠ t := by
  intro h
  rw [h, ht] at hp
  exact absurd hp (by simp)

/-! ### Frame lemmas: operations touch only paths inside year directories -/

theorem readF_move_file_ne (st : St) (s d p : Str) (hs : p ≠ s) (hd : p ≠ d) :
    (move_file st s d).fs.readF p = st.fs.readF p := by
  unfold move_file
  cases hc : st.fs.readF s with
  | none => rfl
  | some c =>
    simp only [addFix]
    rw [readF_write_ne _ _ _ _ hd, readF_remove_ne _ _ _ hs]

theorem readF_copy_file_ne (st : St) (s d p : Str) (hd : p ≠ d) :
    (copy_file st s d).fs.readF p = st.fs.readF p := by
  unfold copy_file
  cases hc : st.fs.readF s with
  | none => rfl
  | some c =>
    simp only [addFix]
    rw [readF_write_ne _ _ _ _ hd]

theorem readF_write_file_ne (st : St) (nm p : Str) (c : Content) (hd : p ≠ nm) :
    (write_file st nm c).fs.readF p = st.fs.readF p := by
  unfold write_file
  simp only [addFix]
  rw [readF_write_ne _ _ _ _ hd]

/-- Timestamp inference only ever touches `errors`: the filesystem and the fixes
list come back unchanged. -/
theorem infer_fs_fixes (st : St) (f : Str) :
    (infer_time_from_image_file st f).2.fs = st.fs ∧
    (infer_time_from_image_file st f).2.fixes = st.fixes := by
  simp only [infer_time_from_image_file]
  cases scanL matchP1 (filename_without_ext f) with
  | some g6 =>
    obtain ⟨y, mo, d, h, mi, s⟩ := g6
    dsimp only
    cases mkDatetime y mo d h mi s 0 <;> simp [addError]
  | none =>
    dsimp only
    cases scanL matchP2 (filename_without_ext f) with
    | some g =>
      dsimp only
      cases mkDatetime g.y g.mo g.d g.h g.mi g.s (g.ms * 1000) <;> simp [addError]
    | none =>
      dsimp only
      cases scanL matchP3 (filename_without_ext f) with
      | some g6 =>
        obtain ⟨y, mo, d, h, mi, s⟩ := g6
        dsimp only
        cases mkDatetime y mo d h mi s 0 <;> simp [addError]
      | none =>
        dsimp only
        cases scanL matchP4 f with
        | some y =>
          dsimp only
          cases mkDatetime y 1 1 0 0 0 0 <;> simp [addError]
        | none => simp

theorem endsL_suppl_of_sub_ne {jf : Str} (h : subSupplJson jf ≠ jf) :
    endsL jf (pstr ".suppl.json") = true := by
  by_contra hc
  have hfalse : endsL jf (pstr ".suppl.json") = false := by
    cases hx : endsL jf (pstr ".suppl.json")
    · rfl
    · exact absurd hx hc
  exact h (subSupplJson_id hfalse)

theorem fix_divergent_readF (st : St) (jf p : Str)
    (hjf : isYearDir (dirnameList jf) = true)
    (hp : isYearDir (dirnameList p) = false) :
    (fix_divergent_metadata_filename st jf).2.fs.readF p = st.fs.readF p := by
  unfold fix_divergent_metadata_filename
  by_cases h1 : endsL jf (pstr "supplemental-metadata.json") = true
  · rw [if_pos h1]
  · rw [if_neg h1]
    by_cases h2 : subSupplJson jf = jf
    · rw [if_pos h2]
    · rw [if_neg h2]
      have hsub : endsL jf (pstr ".suppl.json") = true := endsL_suppl_of_sub_ne h2
      obtain ⟨pre, hjf_eq, hsubst⟩ := subSupplJson_spec hsub
      have hdpre : dirnameList jf = dirnameList pre := by
        rw [hjf_eq]
        exact dirnameList_append_noslash _ _ (by decide)
      have hdsub : dirnameList (subSupplJson jf) = dirnameList pre := by
        rw [hsubst]
        exact dirnameList_append_noslash _ _ (by decide)
      have hysub : isYearDir (dirnameList (subSupplJson jf)) = true := by
        rw [hdsub, ← hdpre]; exact hjf
      exact readF_move_file_ne st jf _ p
        (ne_of_yeardir_mismatch hp hjf) (ne_of_yeardir_mismatch hp hysub)

theorem metadata_file_dirname (img : Str) :
    dirnameList (metadata_file_for img) = dirnameList img := by
  unfold metadata_file_for
  exact dirnameList_append_noslash _ _ (by decide)

theorem editada_readF (st : St) (img p : Str)
    (himg : isYearDir (dirnameList img) = true)
    (hp : isYearDir (dirnameList p) = false) :
    (editada_step st img).fs.readF p = st.fs.readF p := by
  unfold editada_step
  by_cases hed : containsSub (pstr "-editada") img = true
  · rw [if_pos hed]
    by_cases hex : st.fs.existsP (replaceList (pstr "-editada") [] img
        ++ pstr ".supplemental-metadata.json") = true
    · rw [if_pos hex]
      have hdir : isYearDir (dirnameList (img ++ pstr ".supplemental-metadata.json")) = true := by
        rw [dirnameList_append_noslash _ _ (by decide)]
        exact himg
      exact readF_copy_file_ne _ _ _ _ (ne_of_yeardir_mismatch hp hdir)
    · rw [if_neg hex]
  · rw [if_neg hed]

theorem numbered_name_noslash (img : Str) {num ds : Str}
    (hnum : num = '(' :: (ds ++ [')'])) (hds : ∀ c ∈ ds, c.isDigit = true) :
    ∀ c ∈ rsplitRejoin (replaceList num [] (basenameList img))
        ++ pstr ".supplemental-metadata" ++ num ++ pstr ".json", c ≠ '/' := by
  intro c hc
  rcases List.mem_append.mp hc with hc1 | hc2
  · rcases List.mem_append.mp hc1 with hc3 | hc4
    · rcases List.mem_append.mp hc3 with hc5 | hc6
      · rcases mem_rsplitRejoin hc5 with hc7 | hc7
        · rcases mem_replaceList hc7 with hc8 | hc8
          · simp at hc8
          · exact mem_basename_ne_slash hc8
        · rw [hc7]; decide
      · intro hcc
        rw [hcc] at hc6
        exact absurd hc6 (by decide)
    · rw [hnum] at hc4
      rcases List.mem_cons.mp hc4 with hc5 | hc6
      · rw [hc5]; decide
      · rcases List.mem_append.mp hc6 with hc7 | hc8
        · exact isDigit_ne_slash (hds c hc7)
        · rcases List.mem_singleton.mp hc8 with rfl
          decide
  · intro hcc
    rw [hcc] at hc2
    exact absurd hc2 (by decide)

theorem numbered_readF (st : St) (img p : Str)
    (himg : isYearDir (dirnameList img) = true)
    (hp : isYearDir (dirnameList p) = false) :
    (numbered_step st img).fs.readF p = st.fs.readF p := by
  unfold numbered_step
  cases htp : trailingParen (filename_without_ext img) with
  | none => rfl
  | some num =>
    obtain ⟨ds, hnum, _, hds⟩ := trailingParen_shape htp
    simp only
    have hwrongd : isYearDir (dirnameList (pathJoin (dirnameList img)
        (rsplitRejoin (replaceList num [] (basenameList img))
          ++ pstr ".supplemental-metadata" ++ num ++ pstr ".json"))) = true := by
      rw [dirnameList_pathJoin_year himg (numbered_name_noslash img hnum hds)]
      exact himg
    have hfixd : isYearDir (dirnameList (pathJoin (dirnameList img)
        (basenameList img ++ pstr ".supplemental-metadata.json"))) = true := by
      rw [dirnameList_pathJoin_year himg (fun c hc => by
        rcases List.mem_append.mp hc with h1 | h2
        · exact mem_basename_ne_slash h1
        · intro hcc
          rw [hcc] at h2
          exact absurd h2 (by decide))]
      exact himg
    split
    · split
      · simp only [addError]
      · exact readF_move_file_ne _ _ _ _
          (ne_of_yeardir_mismatch hp hwrongd) (ne_of_yeardir_mismatch hp hfixd)
    · simp only [addError]

theorem generate_readF (st : St) (img p : Str)
    (himg : isYearDir (dirnameList img) = true)
    (hp : isYearDir (dirnameList p) = false) :
    (generate_metadata_for_image_file st img).fs.readF p = st.fs.readF p := by
  unfold generate_metadata_for_image_file
  by_cases hex : st.fs.existsP (metadata_file_for img) = true
  · rw [if_pos hex]
  · rw [if_neg hex]
    rcases hinf : infer_time_from_image_file st img with ⟨o, st'⟩
    have hfs : st'.fs = st.fs := by
      have := (infer_fs_fixes st img).1
      rw [hinf] at this
      exact this
    have hmdir : isYearDir (dirnameList (metadata_file_for img)) = true := by
      rw [metadata_file_dirname]; exact himg
    cases o with
    | some t =>
      simp only
      rw [readF_write_file_ne _ _ _ _ (ne_of_yeardir_mismatch hp hmdir), hfs]
    | none =>
      simp only [addError]
      rw [hfs]

theorem fix_metadata_readF (st : St) (img p : Str)
    (himg : isYearDir (dirnameList img) = true)
    (hp : isYearDir (dirnameList p) = false) :
    (fix_metadata_file_for_image st img).fs.readF p = st.fs.readF p := by
  unfold fix_metadata_file_for_image
  rw [numbered_readF _ _ _ himg hp, editada_readF _ _ _ himg hp]

theorem foldl_divergent_readF (p : Str) (hp : isYearDir (dirnameList p) = false) :
    ∀ (l : List Str) (st : St), (∀ jf ∈ l, isYearDir (dirnameList jf) = true) →
      (l.foldl (fun st jf => (fix_divergent_metadata_filename st jf).2) st).fs.readF p
        = st.fs.readF p := by
  intro l
  induction l with
  | nil => intro st _; rfl
  | cons jf rest ih =>
    intro st hall
    simp only [List.foldl_cons]
    rw [ih _ (fun x hx => hall x (List.mem_cons_of_mem _ hx)),
        fix_divergent_readF st jf p (hall jf (List.mem_cons_self _ _)) hp]

theorem foldl_media_readF (p : Str) (hp : isYearDir (dirnameList p) = false) :
    ∀ (l : List Str) (st : St), (∀ img ∈ l, isYearDir (dirnameList img) = true) →
      (l.foldl (fun st img =>
          generate_metadata_for_image_file (fix_metadata_file_for_image st img) img) st).fs.readF p
        = st.fs.readF p := by
  intro l
  induction l with
  | nil => intro st _; rfl
  | cons img rest ih =>
    intro st hall
    simp only [List.foldl_cons]
    rw [ih _ (fun x hx => hall x (List.mem_cons_of_mem _ hx)),
        generate_readF _ _ _ (hall img (List.mem_cons_self _ _)) hp,
        fix_metadata_readF _ _ _ (hall img (List.mem_cons_self _ _)) hp]

/-! ### Claim C10: the run never deletes a file -/

/-- Every file present at the start is, at state `st`, still present or has been
moved (with a recorded fix entry) to a path carrying the canonical suffix. -/
def KeptOrMoved (fs0 : FS) (st : St) : Prop :=
  ∀ p, fs0.existsP p = true →
    st.fs.existsP p = true ∨
    ∃ q, st.fs.existsP q = true ∧ endsL q (pstr "supplemental-metadata.json") = true ∧
      (basenameList p ++ pstr " moved to " ++ basenameList q) ∈ st.fixes

theorem KeptOrMoved_write_like {fs0 : FS} {st st' : St}
    (hfs : ∀ q, st.fs.existsP q = true → st'.fs.existsP q = true)
    (hfix : ∀ m, m ∈ st.fixes → m ∈ st'.fixes)
    (h : KeptOrMoved fs0 st) : KeptOrMoved fs0 st' := by
  intro p hp
  rcases h p hp with h1 | ⟨q, hq1, hq2, hq3⟩
  · exact Or.inl (hfs p h1)
  · exact Or.inr ⟨q, hfs q hq1, hq2, hfix _ hq3⟩

theorem copy_file_fixes_mono (st : St) (s d : Str) :
    ∀ m ∈ st.fixes, m ∈ (copy_file st s d).fixes := by
  intro m hm
  unfold copy_file
  cases st.fs.readF s with
  | none => exact hm
  | some c =>
    simp only [addFix]
    exact List.mem_append_left _ hm

theorem write_file_fixes_mono (st : St) (nm : Str) (c : Content) :
    ∀ m ∈ st.fixes, m ∈ (write_file st nm c).fixes := by
  intro m hm
  unfold write_file
  simp only [addFix]
  exact List.mem_append_left _ hm

theorem existsP_write_file_other (st : St) (nm : Str) (c : Content) (p : Str)
    (h : st.fs.existsP p = true) : (write_file st nm c).fs.existsP p = true := by
  unfold write_file
  simp only [addFix]
  exact existsP_write_of _ _ _ _ h

theorem KeptOrMoved_move {fs0 : FS} (st : St) (s d : Str)
    (hs : endsL s (pstr "supplemental-metadata.json") = false)
    (hd : endsL d (pstr "supplemental-metadata.json") = true)
    (h : KeptOrMoved fs0 st) : KeptOrMoved fs0 (move_file st s d) := by
  intro p hp
  rcases h p hp with h1 | ⟨q, hq1, hq2, hq3⟩
  · by_cases hps : p = s
    · subst hps
      obtain ⟨c, hc⟩ := existsP_some h1
      right
      refine ⟨d, ?_, hd, ?_⟩
      · unfold move_file
        rw [hc]
        simp only [addFix]
        exact existsP_write_self _ _ _
      · unfold move_file
        rw [hc]
        simp only [addFix]
        exact List.mem_append_right _ (List.mem_singleton.mpr rfl)
    · exact Or.inl (existsP_move_other st s d p hps h1)
  · right
    have hqs : q ≠ s := by
      intro hqe
      rw [hqe, hs] at hq2
      exact absurd hq2 (by simp)
    refine ⟨q, existsP_move_other st s d q hqs hq1, hq2, ?_⟩
    unfold move_file
    cases hc : st.fs.readF s with
    | none => exact hq3
    | some c =>
      simp only [addFix]
      exact List.mem_append_left _ hq3

theorem fixed_name_canonical (d bn : Str) :
    endsL (pathJoin d (bn ++ pstr ".supplemental-metadata.json"))
      (pstr "supplemental-metadata.json") = true := by
  obtain ⟨p, hp⟩ := endsL_exists (pathJoin_endsL d (bn ++ pstr ".supplemental-metadata.json"))
  rw [hp, ← List.append_assoc]
  exact canonical_endsL _

theorem KeptOrMoved_divergent (fs0 : FS) (st : St) (jf : Str)
    (h : KeptOrMoved fs0 st) : KeptOrMoved fs0 (fix_divergent_metadata_filename st jf).2 := by
  unfold fix_divergent_metadata_filename
  by_cases h1 : endsL jf (pstr "supplemental-metadata.json") = true
  · rw [if_pos h1]; exact h
  · rw [if_neg h1]
    by_cases h2 : subSupplJson jf = jf
    · rw [if_pos h2]; exact h
    · rw [if_neg h2]
      have hsub := endsL_suppl_of_sub_ne h2
      have hs : endsL jf (pstr "supplemental-metadata.json") = false := by
        cases hx : endsL jf (pstr "supplemental-metadata.json")
        · rfl
        · exact absurd hx h1
      exact KeptOrMoved_move st jf _ hs (subSupplJson_canonical hsub) h

theorem KeptOrMoved_editada (fs0 : FS) (st : St) (img : Str)
    (h : KeptOrMoved fs0 st) : KeptOrMoved fs0 (editada_step st img) := by
  unfold editada_step
  by_cases hed : containsSub (pstr "-editada") img = true
  · rw [if_pos hed]
    by_cases hex : st.fs.existsP (replaceList (pstr "-editada") [] img
        ++ pstr ".supplemental-metadata.json") = true
    · rw [if_pos hex]
      exact KeptOrMoved_write_like
        (fun q => existsP_copy_other st _ _ q) (copy_file_fixes_mono st _ _) h
    · rw [if_neg hex]; exact h
  · rw [if_neg hed]; exact h

theorem KeptOrMoved_numbered (fs0 : FS) (st : St) (img : Str)
    (h : KeptOrMoved fs0 st) : KeptOrMoved fs0 (numbered_step st img) := by
  unfold numbered_step
  cases htp : trailingParen (filename_without_ext img) with
  | none => exact h
  | some num =>
    obtain ⟨ds, hnum, _, _⟩ := trailingParen_shape htp
    simp only
    split
    · split
      · exact KeptOrMoved_write_like (fun q hq => hq) (fun m hm => hm) h
      · exact KeptOrMoved_move _ _ _
          (not_canonical_of_paren (wrong_name_endsParen _ _ hnum))
          (fixed_name_canonical _ _) h
    · exact KeptOrMoved_write_like (fun q hq => hq) (fun m hm => hm) h

theorem KeptOrMoved_generate (fs0 : FS) (st : St) (img : Str)
    (h : KeptOrMoved fs0 st) : KeptOrMoved fs0 (generate_metadata_for_image_file st img) := by
  unfold generate_metadata_for_image_file
  by_cases hex : st.fs.existsP (metadata_file_for img) = true
  · rw [if_pos hex]; exact h
  · rw [if_neg hex]
    rcases hinf : infer_time_from_image_file st img with ⟨o, st'⟩
    have hfs : st'.fs = st.fs := by
      have := (infer_fs_fixes st img).1
      rw [hinf] at this
      exact this
    have hfix : st'.fixes = st.fixes := by
      have := (infer_fs_fixes st img).2
      rw [hinf] at this
      exact this
    have h' : KeptOrMoved fs0 st' :=
      KeptOrMoved_write_like (fun q hq => by rw [hfs]; exact hq)
        (fun m hm => by rw [hfix]; exact hm) h
    cases o with
    | some t =>
      exact KeptOrMoved_write_like
        (fun q => existsP_write_file_other st' _ _ q) (write_file_fixes_mono st' _ _) h'
    | none => exact KeptOrMoved_write_like (fun q hq => hq) (fun m hm => hm) h'

theorem KeptOrMoved_foldl_divergent (fs0 : FS) :
    ∀ (l : List Str) (st : St), KeptOrMoved fs0 st →
      KeptOrMoved fs0 (l.foldl (fun st jf => (fix_divergent_metadata_filename st jf).2) st) := by
  intro l
  induction l with
  | nil => intro st h; exact h
  | cons jf rest ih =>
    intro st h
    simp only [List.foldl_cons]
    exact ih _ (KeptOrMoved_divergent fs0 st jf h)

theorem KeptOrMoved_foldl_media (fs0 : FS) :
    ∀ (l : List Str) (st : St), KeptOrMoved fs0 st →
      KeptOrMoved fs0 (l.foldl (fun st img =>
        generate_metadata_for_image_file (fix_metadata_file_for_image st img) img) st) := by
  intro l
  induction l with
  | nil => intro st h; exact h
  | cons img rest ih =>
    intro st h
    simp only [List.foldl_cons]
    exact ih _ (KeptOrMoved_generate fs0 _ img
      (KeptOrMoved_numbered fs0 _ img (KeptOrMoved_editada fs0 st img h)))

/-- C10: a run never deletes a file — although the `delete_file` primitive
exists, `execute` and the operations it invokes only list, copy, move and write,
so every file present before the run still exists afterwards, either at its
original path or at the renamed path recorded in the fixes log. -/
theorem C10_no_deletion (takeout_dir : Str) (fs0 : FS) (p : Str)
    (h : fs0.existsP p = true) :
    (executeRun takeout_dir fs0).st.fs.existsP p = true ∨
    ∃ q, (executeRun takeout_dir fs0).st.fs.existsP q = true ∧
      (basenameList p ++ pstr " moved to " ++ basenameList q)
        ∈ (executeRun takeout_dir fs0).st.fixes := by
  have hinit : KeptOrMoved fs0 { fs := fs0, fixes := [], errors := [] } := by
    intro x hx
    exact Or.inl hx
  have hinv : KeptOrMoved fs0 (executeRun takeout_dir fs0).st := by
    simp only [executeRun]
    exact KeptOrMoved_foldl_media fs0 _ _ (KeptOrMoved_foldl_divergent fs0 _ _ hinit)
  rcases hinv p h with h1 | ⟨q, hq1, _, hq3⟩
  · exact Or.inl h1
  · exact Or.inr ⟨q, hq1, hq3⟩

/-- Witness for C10: a tree whose only sidecar gets renamed by normalization. -/
theorem C10_no_deletion_witness :
    (executeRun (pstr "t") ⟨[(pstr "Photos from 2020/a.jpg.suppl.json", Content.raw [])]⟩).st.fs.existsP
        (pstr "Photos from 2020/a.jpg.suppl.json") = true ∨
    ∃ q, (executeRun (pstr "t")
        ⟨[(pstr "Photos from 2020/a.jpg.suppl.json", Content.raw [])]⟩).st.fs.existsP q = true ∧
      (basenameList (pstr "Photos from 2020/a.jpg.suppl.json") ++ pstr " moved to "
          ++ basenameList q)
        ∈ (executeRun (pstr "t")
            ⟨[(pstr "Photos from 2020/a.jpg.suppl.json", Content.raw [])]⟩).st.fixes :=
  C10_no_deletion (pstr "t") ⟨[(pstr "Photos from 2020/a.jpg.suppl.json", Content.raw [])]⟩
    (pstr "Photos from 2020/a.jpg.suppl.json") (by decide)

/-! ### Structure of `replace` around regions the needle cannot touch -/

theorem replaceFuel_congr (n r : Str) (f1 : Nat) :
    ∀ (f2 : Nat) (l : Str), l.length ≤ f1 → l.length ≤ f2 →
      replaceFuel n r f1 l = replaceFuel n r f2 l := by
  induction f1 with
  | zero =>
    intro f2 l h1 _
    have hl : l = [] := List.length_eq_zero.mp (Nat.le_zero.mp h1)
    subst hl
    cases f2 <;> rfl
  | succ k ih =>
    intro f2 l h1 h2
    cases l with
    | nil => cases f2 <;> rfl
    | cons c rest =>
      cases f2 with
      | zero => simp at h2
      | succ k2 =>
        have hr1 : rest.length ≤ k := by simpa using h1
        have hr2 : rest.length ≤ k2 := by simpa using h2
        by_cases hb : n ≠ [] ∧ isPre n (c :: rest) = true
        · rw [replaceFuel, replaceFuel, if_pos hb, if_pos hb]
          congr 1
          have hn1 : 1 ≤ n.length := List.length_pos.mpr hb.1
          apply ih
          · simp only [List.length_drop, List.length_cons]
            omega
          · simp only [List.length_drop, List.length_cons]
            omega
        · rw [replaceFuel, replaceFuel, if_neg hb, if_neg hb]
          rw [ih k2 rest hr1 hr2]

theorem replaceList_step (n : Str) (c : Char) (t : Str) :
    replaceList n [] (c :: t) =
      if n ≠ [] ∧ isPre n (c :: t) = true then replaceList n [] ((c :: t).drop n.length)
      else c :: replaceList n [] t := by
  have h1 : replaceList n [] (c :: t) = replaceFuel n [] (t.length + 1) (c :: t) := rfl
  by_cases hb : n ≠ [] ∧ isPre n (c :: t) = true
  · rw [if_pos hb, h1, replaceFuel, if_pos hb]
    simp only [List.nil_append]
    have hn1 : 1 ≤ n.length := List.length_pos.mpr hb.1
    exact replaceFuel_congr n [] t.length _ _
      (by simp only [List.length_drop, List.length_cons]; omega) le_rfl
  · rw [if_neg hb, h1, replaceFuel, if_neg hb]
    rfl

theorem isPre_mono {a w : Str} (z : Str) (h : isPre a w = true) : isPre a (w ++ z) = true := by
  obtain ⟨t, rfl⟩ := isPre_exists h
  rw [List.append_assoc]
  exact isPre_append _ _

theorem isPre_restrict {a : Str} : ∀ {u : Str} (w : Str),
    isPre a (u ++ w) = true → a.length ≤ u.length → isPre a u = true := by
  induction a with
  | nil => intro u _ _ _; cases u <;> rfl
  | cons c a' ih =>
    intro u w h hl
    cases u with
    | nil => simp at hl
    | cons b u' =>
      rw [List.cons_append] at h
      simp only [isPre, Bool.and_eq_true, decide_eq_true_eq] at h ⊢
      exact ⟨h.1, ih w h.2 (by simpa using hl)⟩

theorem isPre_decomp {a : Str} : ∀ {u : Str} (w : Str),
    isPre a (u ++ w) = true → u.length ≤ a.length →
    ∃ a₂, a = u ++ a₂ ∧ isPre a₂ w = true := by
  intro u
  induction u generalizing a with
  | nil => intro w h _; exact ⟨a, rfl, h⟩
  | cons c u' ih =>
    intro w h hl
    cases a with
    | nil => simp at hl
    | cons b a' =>
      rw [List.cons_append] at h
      simp only [isPre, Bool.and_eq_true, decide_eq_true_eq] at h
      obtain ⟨a₂, ha, hp⟩ := ih w h.2 (by simpa using hl)
      exact ⟨a₂, by rw [h.1, ha, List.cons_append], hp⟩

theorem replaceList_pass (n : Str) : ∀ (m v : Str),
    (∀ k, k < m.length → isPre n (m.drop k ++ v) = false) →
    replaceList n [] (m ++ v) = m ++ replaceList n [] v := by
  intro m
  induction m with
  | nil => intro v _; rfl
  | cons c m' ih =>
    intro v hk
    rw [List.cons_append, replaceList_step]
    have h0 := hk 0 (by simp)
    simp only [List.drop_zero, List.cons_append] at h0
    rw [if_neg (by
      intro hb
      rw [h0] at hb
      exact absurd hb.2 (by simp))]
    rw [ih v (fun k hk' => by
      have := hk (k + 1) (by simp only [List.length_cons]; omega)
      simpa using this)]
    rfl

theorem replaceList_split (n : Str) (hn : n ≠ []) :
    ∀ (N : Nat) (u m v : Str), u.length ≤ N →
    (∀ u₂ : Str, u₂ ≠ [] → isPre n (u₂ ++ (m ++ v)) = true → n.length ≤ u₂.length) →
    (∀ k, k < m.length → isPre n (m.drop k ++ v) = false) →
    replaceList n [] (u ++ (m ++ v)) = replaceList n [] u ++ (m ++ replaceList n [] v) := by
  intro N
  induction N with
  | zero =>
    intro u m v hu _ hm
    have : u = [] := List.length_eq_zero.mp (Nat.le_zero.mp hu)
    subst this
    simp only [List.nil_append]
    exact replaceList_pass n m v hm
  | succ K ih =>
    intro u m v hu hcross hm
    cases u with
    | nil =>
      simp only [List.nil_append]
      exact replaceList_pass n m v hm
    | cons c u' =>
      by_cases hp1 : isPre n ((c :: u') ++ (m ++ v)) = true
      · have hlen : n.length ≤ (c :: u').length := hcross _ (by simp) hp1
        have hpre_u : isPre n (c :: u') = true := isPre_restrict (m ++ v) hp1 hlen
        rw [List.cons_append, replaceList_step, if_pos ⟨hn, by rwa [← List.cons_append]⟩]
        rw [show (c :: (u' ++ (m ++ v))) = ((c :: u') ++ (m ++ v)) by rw [List.cons_append]]
        rw [List.drop_append_of_le_length hlen]
        have hlt : ((c :: u').drop n.length).length ≤ K := by
          have hn1 : 1 ≤ n.length := List.length_pos.mpr hn
          simp only [List.length_drop, List.length_cons]
          simp only [List.length_cons] at hu
          omega
        rw [ih _ m v hlt hcross hm]
        rw [replaceList_step, if_pos ⟨hn, hpre_u⟩]
      · have hpre_u : ¬ isPre n (c :: u') = true := by
          intro hc
          exact hp1 (isPre_mono (m ++ v) hc)
        rw [List.cons_append, replaceList_step, if_neg (by
          intro hb
          have hb2 := hb.2
          rw [← List.cons_append] at hb2
          exact hp1 hb2)]
        have hu' : u'.length ≤ K := by simpa using hu
        rw [ih u' m v hu' hcross hm]
        rw [replaceList_step (n := n) (c := c) (t := u'), if_neg (by
          intro hb
          exact hpre_u hb.2)]
        simp

/-! ### Shape of paths whose dirname is a year directory -/

theorem takeWhile_append_all {p : Char → Bool} {l1 : Str} (l2 : Str)
    (h : ∀ c ∈ l1, p c = true) : (l1 ++ l2).takeWhile p = l1 ++ l2.takeWhile p := by
  induction l1 with
  | nil => rfl
  | cons c r ih =>
    simp [List.takeWhile, h c (by simp), ih (fun x hx => h x (by simp [hx]))]

theorem dropWhile_head_false {p : Char → Bool} : ∀ {l : Str} {c : Char} {t : Str},
    l.dropWhile p = c :: t → p c = false := by
  intro l
  induction l with
  | nil => intro c t h; simp [List.dropWhile] at h
  | cons a r ih =>
    intro c t h
    by_cases hp : p a = true
    · rw [List.dropWhile_cons_of_pos hp] at h
      exact ih h
    · rw [List.dropWhile_cons_of_neg hp] at h
      injection h with h1 _
      rw [← h1]
      cases hx : p a
      · rfl
      · exact absurd hx hp

theorem isDigit_not_slash_pred {c : Char} (h : c.isDigit = true) :
    decide (c = '/') = false := by
  have := isDigit_ne_slash h
  simpa using this

/-- Introduction form: a path `pre ++ "Photos from " ++ digits ++ slashes ++
basename` always has a year dirname. -/
theorem yeardir_intro (pre ds sl bn : Str)
    (hds : ds ≠ []) (hdig : ∀ c ∈ ds, c.isDigit = true)
    (hsl : sl ≠ []) (hslc : ∀ c ∈ sl, c = '/')
    (hbn : ∀ c ∈ bn, c ≠ '/') :
    isYearDir (dirnameList (pre ++ (pstr "Photos from " ++ (ds ++ (sl ++ bn))))) = true := by
  obtain ⟨s0, sl', hslr⟩ : ∃ s0 sl', sl.reverse = s0 :: sl' := by
    cases hx : sl.reverse with
    | nil => exact absurd (by simpa using congrArg List.reverse hx) hsl
    | cons a b => exact ⟨a, b, rfl⟩
  have hs0 : s0 = '/' := by
    have : s0 ∈ sl.reverse := by rw [hslr]; exact List.mem_cons_self _ _
    exact hslc s0 (List.mem_reverse.mp this)
  subst hs0
  have hslc' : ∀ c ∈ sl', c = '/' := fun c hc => by
    have : c ∈ sl.reverse := by rw [hslr]; exact List.mem_cons_of_mem _ hc
    exact hslc c (List.mem_reverse.mp this)
  obtain ⟨d0, ds', hdsr⟩ : ∃ d0 ds', ds.reverse = d0 :: ds' := by
    cases hx : ds.reverse with
    | nil => exact absurd (by simpa using congrArg List.reverse hx) hds
    | cons a b => exact ⟨a, b, rfl⟩
  have hd0 : d0.isDigit = true := by
    have : d0 ∈ ds.reverse := by rw [hdsr]; exact List.mem_cons_self _ _
    exact hdig d0 (List.mem_reverse.mp this)
  have hrev : (pre ++ (pstr "Photos from " ++ (ds ++ (sl ++ bn)))).reverse
      = bn.reverse ++ (('/' :: sl') ++ (ds.reverse
          ++ ((pstr "Photos from ").reverse ++ pre.reverse))) := by
    simp [List.reverse_append, hslr]
  unfold dirnameList
  rw [hrev]
  rw [dropWhile_append_all _ (fun c hc => by
    rw [List.mem_reverse] at hc
    exact decide_eq_true (hbn c hc))]
  rw [List.cons_append, List.dropWhile_cons_of_neg (by simp)]
  unfold dirAux
  have hd0mem : d0 ∈ '/' :: (sl' ++ (ds.reverse ++ ((pstr "Photos from ").reverse ++ pre.reverse))) := by
    apply List.mem_cons_of_mem
    apply List.mem_append_right
    apply List.mem_append_left
    rw [hdsr]
    exact List.mem_cons_self _ _
  have hall : (('/' :: (sl' ++ (ds.reverse ++ ((pstr "Photos from ").reverse ++ pre.reverse)))).all
      (fun c => decide (c = '/'))) = false := by
    cases hx : (('/' :: (sl' ++ (ds.reverse ++ ((pstr "Photos from ").reverse ++ pre.reverse)))).all
        (fun c => decide (c = '/')))
    · rfl
    · exfalso
      have := List.all_eq_true.mp hx d0 hd0mem
      have hd0s : d0 = '/' := of_decide_eq_true this
      rw [hd0s] at hd0
      exact absurd hd0 (by decide)
  simp only [List.isEmpty_cons, hall, Bool.false_eq_true, if_false]
  rw [List.dropWhile_cons_of_pos (by simp)]
  rw [dropWhile_append_all _ (fun c hc => decide_eq_true (hslc' c hc))]
  rw [show ds.reverse ++ ((pstr "Photos from ").reverse ++ pre.reverse)
      = d0 :: (ds' ++ ((pstr "Photos from ").reverse ++ pre.reverse)) by
    rw [hdsr, List.cons_append]]
  rw [List.dropWhile_cons_of_neg (by simp [isDigit_not_slash_pred hd0])]
  unfold isYearDir
  rw [List.span_eq_take_drop, List.reverse_reverse]
  dsimp only
  have hdig' : ∀ c ∈ d0 :: ds', c.isDigit = true := by
    intro c hc
    have : c ∈ ds.reverse := by rw [hdsr]; exact hc
    exact hdig c (List.mem_reverse.mp this)
  rw [show (d0 :: (ds' ++ ((pstr "Photos from ").reverse ++ pre.reverse)))
      = (d0 :: ds') ++ ((pstr "Photos from ").reverse ++ pre.reverse) by rw [List.cons_append]]
  rw [takeWhile_append_all _ hdig', dropWhile_append_all _ hdig']
  have hPrev : (pstr "Photos from ").reverse = ' ' :: pstr "morf sotohP" := by decide
  rw [hPrev]
  simp only [List.cons_append]
  rw [List.takeWhile_cons_of_neg (by decide), List.dropWhile_cons_of_neg (by decide)]
  simp only [List.append_nil, Bool.and_eq_true, Bool.not_eq_true']
  constructor
  · simp
  · rw [← List.cons_append, ← hPrev]
    exact isPre_append _ _

/-- Elimination form: a path with a year dirname decomposes as
`pre ++ "Photos from " ++ digits ++ slashes ++ basename`. -/
theorem yeardir_decomp {x : Str} (h : isYearDir (dirnameList x) = true) :
    ∃ pre ds sl bn, x = pre ++ (pstr "Photos from " ++ (ds ++ (sl ++ bn))) ∧
      ds ≠ [] ∧ (∀ c ∈ ds, c.isDigit = true) ∧ sl ≠ [] ∧ (∀ c ∈ sl, c = '/') ∧
      (∀ c ∈ bn, c ≠ '/') := by
  have hsplit0 : x.reverse.takeWhile (fun c => decide (c ≠ '/'))
      ++ x.reverse.dropWhile (fun c => decide (c ≠ '/')) = x.reverse :=
    List.takeWhile_append_dropWhile _ _
  unfold dirnameList at h
  cases hh : x.reverse.dropWhile (fun c => decide (c ≠ '/')) with
  | nil =>
    rw [hh] at h
    exact absurd h (by decide)
  | cons h0 ht =>
    rw [hh] at h hsplit0
    have hh0 : h0 = '/' := by
      have := dropWhile_head_false hh
      have := of_decide_eq_false this
      simpa using this
    subst hh0
    unfold dirAux at h
    by_cases hall : (('/' :: ht).all (fun c => decide (c = '/'))) = true
    · exfalso
      rw [if_pos hall] at h
      simp only [List.isEmpty_cons, Bool.false_eq_true, if_false] at h
      obtain ⟨c, r, hcr, hcd⟩ := isYearDir_last_digit h
      rw [List.reverse_reverse] at hcr
      have hcm : c ∈ '/' :: ht := by rw [hcr]; exact List.mem_cons_self _ _
      have := List.all_eq_true.mp hall c hcm
      have hcs : c = '/' := of_decide_eq_true this
      rw [hcs] at hcd
      exact absurd hcd (by decide)
    · rw [if_neg hall] at h
      simp only [List.isEmpty_cons, Bool.false_eq_true, if_false] at h
      set Drev := ('/' :: ht).dropWhile (fun c => decide (c = '/')) with hDrev
      set slRev := ('/' :: ht).takeWhile (fun c => decide (c = '/')) with hslRev
      have hsplit1 : slRev ++ Drev = '/' :: ht := List.takeWhile_append_dropWhile _ _
      unfold isYearDir at h
      rw [List.span_eq_take_drop, List.reverse_reverse] at h
      simp only [Bool.and_eq_true, Bool.not_eq_true'] at h
      obtain ⟨hds_ne, hpre_lit⟩ := h
      set dsRev := Drev.takeWhile Char.isDigit with hdsRev
      set restRev := Drev.dropWhile Char.isDigit with hrestRev
      have hsplit2 : dsRev ++ restRev = Drev := List.takeWhile_append_dropWhile _ _
      obtain ⟨preRev, hrest_eq⟩ := isPre_exists hpre_lit
      set bnRev := x.reverse.takeWhile (fun c => decide (c ≠ '/')) with hbnRev
      have hxrev : x.reverse
          = bnRev ++ (slRev ++ (dsRev ++ ((pstr "Photos from ").reverse ++ preRev))) := by
        conv_lhs => rw [← hsplit0]
        rw [← hsplit1]
        rw [← hsplit2]
        rw [hrest_eq]
      refine ⟨preRev.reverse, dsRev.reverse, slRev.reverse, bnRev.reverse,
        ?_, ?_, ?_, ?_, ?_, ?_⟩
      · apply List.reverse_injective
        rw [hxrev]
        simp [List.reverse_append, List.append_assoc]
      · intro hc
        have hnil : dsRev = [] := by simpa using congrArg List.reverse hc
        rw [hnil] at hds_ne
        exact absurd hds_ne (by decide)
      · intro c hc
        rw [List.mem_reverse] at hc
        exact List.mem_takeWhile_imp hc
      · intro hc
        have hnil : slRev = [] := by simpa using congrArg List.reverse hc
        rw [hslRev] at hnil
        rw [List.takeWhile_cons_of_pos (by simp)] at hnil
        exact absurd hnil (by simp)
      · intro c hc
        rw [List.mem_reverse, hslRev] at hc
        have h1 := List.mem_takeWhile_imp hc
        simpa using h1
      · intro c hc
        rw [List.mem_reverse, hbnRev] at hc
        have h1 := List.mem_takeWhile_imp hc
        simpa using h1

theorem isDigit_ne_dash {c : Char} (h : c.isDigit = true) : c ≠ '-' := by
  intro hc
  rw [hc] at h
  exact absurd h (by decide)

/-- Stripping the `-editada` marker from a path cannot disturb its trailing
`Photos from <digits>/<basename>` region: no occurrence of the marker overlaps
it, so the stripped path still has a year dirname. -/
theorem editada_strip_year {x : Str} (h : isYearDir (dirnameList x) = true) :
    isYearDir (dirnameList (replaceList (pstr "-editada") [] x)) = true := by
  obtain ⟨pre, ds, sl, bn, hx, hds, hdig, hsl, hslc, hbn⟩ := yeardir_decomp h
  have hx' : x = pre ++ ((pstr "Photos from " ++ (ds ++ sl)) ++ bn) := by
    rw [hx]
    simp [List.append_assoc]
  rw [hx']
  have hcross : ∀ u₂ : Str, u₂ ≠ [] →
      isPre (pstr "-editada") (u₂ ++ ((pstr "Photos from " ++ (ds ++ sl)) ++ bn)) = true →
      (pstr "-editada").length ≤ u₂.length := by
    intro u₂ hne hpre
    by_contra hlt
    have hle : u₂.length ≤ (pstr "-editada").length := by omega
    obtain ⟨a₂, hna, ha₂⟩ := isPre_decomp _ hpre hle
    have ha₂ne : a₂ ≠ [] := by
      intro hc
      rw [hc, List.append_nil] at hna
      rw [hna] at hlt
      exact hlt le_rfl
    obtain ⟨c₂, a₂', rfl⟩ : ∃ c₂ a₂', a₂ = c₂ :: a₂' := by
      cases a₂ with
      | nil => exact absurd rfl ha₂ne
      | cons u v => exact ⟨u, v, rfl⟩
    have hlitP : pstr "Photos from " = 'P' :: pstr "hotos from " := by decide
    have hshape : (pstr "Photos from " ++ (ds ++ sl)) ++ bn
        = 'P' :: (pstr "hotos from " ++ (ds ++ sl) ++ bn) := by
      rw [hlitP]
      simp [List.cons_append]
    rw [hshape] at ha₂
    have hc₂ : c₂ = 'P' := by
      simp only [isPre, Bool.and_eq_true, decide_eq_true_eq] at ha₂
      exact ha₂.1
    have hc₂mem : c₂ ∈ pstr "-editada" := by
      rw [hna]
      exact List.mem_append_right _ (List.mem_cons_self _ _)
    rw [hc₂] at hc₂mem
    exact absurd hc₂mem (by decide)
  have hm : ∀ k, k < (pstr "Photos from " ++ (ds ++ sl)).length →
      isPre (pstr "-editada") ((pstr "Photos from " ++ (ds ++ sl)).drop k ++ bn) = false := by
    intro k hk
    have hdropk := List.drop_eq_getElem_cons hk
    have hmem := List.getElem_mem hk
    have hne : (pstr "Photos from " ++ (ds ++ sl))[k] ≠ '-' := by
      rcases List.mem_append.mp hmem with h1 | h2
      · intro hc
        rw [hc] at h1
        exact absurd h1 (by decide)
      · rcases List.mem_append.mp h2 with h3 | h4
        · exact isDigit_ne_dash (hdig _ h3)
        · intro hc
          have := hslc _ h4
          rw [hc] at this
          exact absurd this (by decide)
    rw [hdropk, List.cons_append]
    have hdash : pstr "-editada" = '-' :: pstr "editada" := by decide
    rw [hdash]
    simp only [isPre, Bool.and_eq_true, decide_eq_true_eq, Bool.and_eq_false_imp]
    cases hx2 : isPre (pstr "editada")
        (((pstr "Photos from " ++ (ds ++ sl))[k] :: ((pstr "Photos from " ++ (ds ++ sl)).drop (k + 1) ++ bn)).tail) <;>
      simp [Ne.symm hne]
  rw [replaceList_split (pstr "-editada") (by decide) pre.length pre
    (pstr "Photos from " ++ (ds ++ sl)) bn le_rfl hcross hm]
  have hfinal : replaceList (pstr "-editada") [] pre
        ++ ((pstr "Photos from " ++ (ds ++ sl)) ++ replaceList (pstr "-editada") [] bn)
      = replaceList (pstr "-editada") [] pre
        ++ (pstr "Photos from " ++ (ds ++ (sl ++ replaceList (pstr "-editada") [] bn))) := by
    simp [List.append_assoc]
  rw [hfinal]
  exact yeardir_intro _ ds sl _ hds hdig hsl hslc (fun c hc => by
    rcases mem_replaceList hc with h1 | h1
    · simp at h1
    · exact hbn c h1)

/-! ### Every report entry names only year-directory files -/

/-- The four error-message shapes the run produces, with every subject path
lying in a year directory. -/
def ErrAboutYear (m : Str) : Prop :=
  (∃ f, isYearDir (dirnameList f) = true ∧ m = pstr "Invalid date in filename: " ++ f) ∨
  (∃ f, isYearDir (dirnameList f) = true ∧ m = pstr "Unable to infer metadata for " ++ f) ∨
  (∃ f, isYearDir (dirnameList f) = true ∧ m = pstr "Metadata file already exist: " ++ f) ∨
  (∃ w f, isYearDir (dirnameList w) = true ∧ isYearDir (dirnameList f) = true ∧
    m = pstr "Metadata file: " ++ w ++ (pstr " not exist for image: " ++ f))

/-- The three fix-message shapes the run produces, with every subject path
lying in a year directory. -/
def FixAboutYear (m : Str) : Prop :=
  (∃ s d, isYearDir (dirnameList s) = true ∧ isYearDir (dirnameList d) = true ∧
    (m = basenameList s ++ (pstr " copied to " ++ basenameList d) ∨
     m = basenameList s ++ (pstr " moved to " ++ basenameList d))) ∨
  (∃ f, isYearDir (dirnameList f) = true ∧ m = basenameList f ++ pstr " written")

/-- Every entry of the errors and fixes lists names only year-directory files. -/
def ReportsYearOnly (st : St) : Prop :=
  (∀ m ∈ st.errors, ErrAboutYear m) ∧ (∀ m ∈ st.fixes, FixAboutYear m)

theorem ReportsYearOnly_addError {st : St} {m : Str} (hm : ErrAboutYear m)
    (h : ReportsYearOnly st) : ReportsYearOnly (addError st m) := by
  refine ⟨?_, h.2⟩
  intro x hx
  rcases List.mem_append.mp hx with h1 | h2
  · exact h.1 x h1
  · rw [List.mem_singleton.mp h2]
    exact hm

theorem ReportsYearOnly_addFix {st : St} {m : Str} (hm : FixAboutYear m)
    (h : ReportsYearOnly st) : ReportsYearOnly (addFix st m) := by
  refine ⟨h.1, ?_⟩
  intro x hx
  rcases List.mem_append.mp hx with h1 | h2
  · exact h.2 x h1
  · rw [List.mem_singleton.mp h2]
    exact hm

theorem ReportsYearOnly_copy {st : St} {s d : Str}
    (hs : isYearDir (dirnameList s) = true) (hd : isYearDir (dirnameList d) = true)
    (h : ReportsYearOnly st) : ReportsYearOnly (copy_file st s d) := by
  unfold copy_file
  cases st.fs.readF s with
  | none => exact h
  | some c =>
    exact ReportsYearOnly_addFix (Or.inl ⟨s, d, hs, hd, Or.inl (by simp)⟩) h

theorem ReportsYearOnly_move {st : St} {s d : Str}
    (hs : isYearDir (dirnameList s) = true) (hd : isYearDir (dirnameList d) = true)
    (h : ReportsYearOnly st) : ReportsYearOnly (move_file st s d) := by
  unfold move_file
  cases st.fs.readF s with
  | none => exact h
  | some c =>
    exact ReportsYearOnly_addFix (Or.inl ⟨s, d, hs, hd, Or.inr (by simp)⟩) h

theorem ReportsYearOnly_write {st : St} {nm : Str} (c : Content)
    (hnm : isYearDir (dirnameList nm) = true)
    (h : ReportsYearOnly st) : ReportsYearOnly (write_file st nm c) :=
  ReportsYearOnly_addFix (Or.inr ⟨nm, hnm, rfl⟩) h

/-- Inference appends at most the invalid-date error about its own argument. -/
theorem infer_errors (st : St) (f : Str) :
    (infer_time_from_image_file st f).2.errors = st.errors ∨
    (infer_time_from_image_file st f).2.errors
      = st.errors ++ [pstr "Invalid date in filename: " ++ f] := by
  simp only [infer_time_from_image_file]
  cases scanL matchP1 (filename_without_ext f) with
  | some g6 =>
    obtain ⟨y, mo, d, h, mi, s⟩ := g6
    dsimp only
    cases mkDatetime y mo d h mi s 0 <;> simp [addError]
  | none =>
    dsimp only
    cases scanL matchP2 (filename_without_ext f) with
    | some g =>
      dsimp only
      cases mkDatetime g.y g.mo g.d g.h g.mi g.s (g.ms * 1000) <;> simp [addError]
    | none =>
      dsimp only
      cases scanL matchP3 (filename_without_ext f) with
      | some g6 =>
        obtain ⟨y, mo, d, h, mi, s⟩ := g6
        dsimp only
        cases mkDatetime y mo d h mi s 0 <;> simp [addError]
      | none =>
        dsimp only
        cases scanL matchP4 f with
        | some y =>
          dsimp only
          cases mkDatetime y 1 1 0 0 0 0 <;> simp [addError]
        | none => simp

theorem ReportsYearOnly_infer {st : St} {f : Str}
    (hf : isYearDir (dirnameList f) = true)
    (h : ReportsYearOnly st) : ReportsYearOnly (infer_time_from_image_file st f).2 := by
  have hfs := (infer_fs_fixes st f).2
  constructor
  · intro m hm
    rcases infer_errors st f with he | he
    · rw [he] at hm
      exact h.1 m hm
    · rw [he] at hm
      rcases List.mem_append.mp hm with h1 | h2
      · exact h.1 m h1
      · rw [List.mem_singleton.mp h2]
        exact Or.inl ⟨f, hf, rfl⟩
  · intro m hm
    rw [hfs] at hm
    exact h.2 m hm

theorem ReportsYearOnly_divergent {st : St} {jf : Str}
    (hjf : isYearDir (dirnameList jf) = true)
    (h : ReportsYearOnly st) : ReportsYearOnly (fix_divergent_metadata_filename st jf).2 := by
  unfold fix_divergent_metadata_filename
  by_cases h1 : endsL jf (pstr "supplemental-metadata.json") = true
  · rw [if_pos h1]; exact h
  · rw [if_neg h1]
    by_cases h2 : subSupplJson jf = jf
    · rw [if_pos h2]; exact h
    · rw [if_neg h2]
      have hsub := endsL_suppl_of_sub_ne h2
      obtain ⟨pre, hjf_eq, hsubst⟩ := subSupplJson_spec hsub
      have hdpre : dirnameList jf = dirnameList pre := by
        rw [hjf_eq]
        exact dirnameList_append_noslash _ _ (by decide)
      have hysub : isYearDir (dirnameList (subSupplJson jf)) = true := by
        rw [hsubst, dirnameList_append_noslash _ _ (by decide), ← hdpre]
        exact hjf
      exact ReportsYearOnly_move hjf hysub h

theorem ReportsYearOnly_editada {st : St} {img : Str}
    (himg : isYearDir (dirnameList img) = true)
    (h : ReportsYearOnly st) : ReportsYearOnly (editada_step st img) := by
  unfold editada_step
  by_cases hed : containsSub (pstr "-editada") img = true
  · rw [if_pos hed]
    by_cases hex : st.fs.existsP (replaceList (pstr "-editada") [] img
        ++ pstr ".supplemental-metadata.json") = true
    · rw [if_pos hex]
      have hom : isYearDir (dirnameList (replaceList (pstr "-editada") [] img
          ++ pstr ".supplemental-metadata.json")) = true := by
        rw [dirnameList_append_noslash _ _ (by decide)]
        exact editada_strip_year himg
      have hem : isYearDir (dirnameList (img ++ pstr ".supplemental-metadata.json")) = true := by
        rw [dirnameList_append_noslash _ _ (by decide)]
        exact himg
      exact ReportsYearOnly_copy hom hem h
    · rw [if_neg hex]; exact h
  · rw [if_neg hed]; exact h

theorem ReportsYearOnly_numbered {st : St} {img : Str}
    (himg : isYearDir (dirnameList img) = true)
    (h : ReportsYearOnly st) : ReportsYearOnly (numbered_step st img) := by
  unfold numbered_step
  cases htp : trailingParen (filename_without_ext img) with
  | none => exact h
  | some num =>
    obtain ⟨ds, hnum, _, hds⟩ := trailingParen_shape htp
    simp only
    have hwrongd : isYearDir (dirnameList (pathJoin (dirnameList img)
        (rsplitRejoin (replaceList num [] (basenameList img))
          ++ pstr ".supplemental-metadata" ++ num ++ pstr ".json"))) = true := by
      rw [dirnameList_pathJoin_year himg (numbered_name_noslash img hnum hds)]
      exact himg
    have hfixd : isYearDir (dirnameList (pathJoin (dirnameList img)
        (basenameList img ++ pstr ".supplemental-metadata.json"))) = true := by
      rw [dirnameList_pathJoin_year himg (fun c hc => by
        rcases List.mem_append.mp hc with h1 | h2
        · exact mem_basename_ne_slash h1
        · intro hcc
          rw [hcc] at h2
          exact absurd h2 (by decide))]
      exact himg
    split
    · split
      · exact ReportsYearOnly_addError (Or.inr (Or.inr (Or.inl ⟨_, hfixd, rfl⟩))) h
      · exact ReportsYearOnly_move hwrongd hfixd h
    · exact ReportsYearOnly_addError
        (Or.inr (Or.inr (Or.inr ⟨_, _, hwrongd, himg, by simp⟩))) h

theorem ReportsYearOnly_generate {st : St} {img : Str}
    (himg : isYearDir (dirnameList img) = true)
    (h : ReportsYearOnly st) : ReportsYearOnly (generate_metadata_for_image_file st img) := by
  unfold generate_metadata_for_image_file
  by_cases hex : st.fs.existsP (metadata_file_for img) = true
  · rw [if_pos hex]; exact h
  · rw [if_neg hex]
    have h' : ReportsYearOnly (infer_time_from_image_file st img).2 :=
      ReportsYearOnly_infer himg h
    rcases hinf : infer_time_from_image_file st img with ⟨o, st'⟩
    rw [hinf] at h'
    have hmd : isYearDir (dirnameList (metadata_file_for img)) = true := by
      rw [metadata_file_dirname]
      exact himg
    cases o with
    | some t => exact ReportsYearOnly_write _ hmd h'
    | none => exact ReportsYearOnly_addError (Or.inr (Or.inl ⟨img, himg, rfl⟩)) h'

theorem ReportsYearOnly_foldl_divergent :
    ∀ (l : List Str) (st : St), (∀ jf ∈ l, isYearDir (dirnameList jf) = true) →
      ReportsYearOnly st →
      ReportsYearOnly (l.foldl (fun st jf => (fix_divergent_metadata_filename st jf).2) st) := by
  intro l
  induction l with
  | nil => intro st _ h; exact h
  | cons jf rest ih =>
    intro st hall h
    simp only [List.foldl_cons]
    exact ih _ (fun x hx => hall x (List.mem_cons_of_mem _ hx))
      (ReportsYearOnly_divergent (hall jf (List.mem_cons_self _ _)) h)

theorem ReportsYearOnly_foldl_media :
    ∀ (l : List Str) (st : St), (∀ img ∈ l, isYearDir (dirnameList img) = true) →
      ReportsYearOnly st →
      ReportsYearOnly (l.foldl (fun st img =>
        generate_metadata_for_image_file (fix_metadata_file_for_image st img) img) st) := by
  intro l
  induction l with
  | nil => intro st _ h; exact h
  | cons img rest ih =>
    intro st hall h
    simp only [List.foldl_cons]
    have himg := hall img (List.mem_cons_self _ _)
    exact ih _ (fun x hx => hall x (List.mem_cons_of_mem _ hx))
      (ReportsYearOnly_generate himg
        (ReportsYearOnly_numbered himg (ReportsYearOnly_editada himg h)))

/-! ### Claim C8 -/

/-- C8: a file whose dirname does not match the year-directory search
`Photos from (\d+)$` is never classified as media or sidecar, its content is
untouched by the whole run, and it is mentioned in no report: it never appears
in the unresolved report, and every entry of the errors and fixes reports is
generated about subject files lying in year directories, none of which is this
file. -/
theorem C8_outside_year_untouched (fs0 : FS) (takeout_dir p : Str)
    (hp : isYearDir (dirnameList p) = false) :
    ¬ p ∈ (executeRun takeout_dir fs0).imageFiles ∧
    ¬ p ∈ (executeRun takeout_dir fs0).jsonFiles ∧
    (executeRun takeout_dir fs0).st.fs.readF p = fs0.readF p ∧
    ¬ p ∈ (executeRun takeout_dir fs0).notFound ∧
    (∀ m ∈ (executeRun takeout_dir fs0).st.errors,
      (∃ f, isYearDir (dirnameList f) = true ∧ f ≠ p ∧
        m = pstr "Invalid date in filename: " ++ f) ∨
      (∃ f, isYearDir (dirnameList f) = true ∧ f ≠ p ∧
        m = pstr "Unable to infer metadata for " ++ f) ∨
      (∃ f, isYearDir (dirnameList f) = true ∧ f ≠ p ∧
        m = pstr "Metadata file already exist: " ++ f) ∨
      (∃ w f, isYearDir (dirnameList w) = true ∧ w ≠ p ∧
        isYearDir (dirnameList f) = true ∧ f ≠ p ∧
        m = pstr "Metadata file: " ++ w ++ (pstr " not exist for image: " ++ f))) ∧
    (∀ m ∈ (executeRun takeout_dir fs0).st.fixes,
      (∃ s d, isYearDir (dirnameList s) = true ∧ s ≠ p ∧
        isYearDir (dirnameList d) = true ∧ d ≠ p ∧
        (m = basenameList s ++ (pstr " copied to " ++ basenameList d) ∨
         m = basenameList s ++ (pstr " moved to " ++ basenameList d))) ∨
      (∃ f, isYearDir (dirnameList f) = true ∧ f ≠ p ∧
        m = basenameList f ++ pstr " written")) := by
  have himg : ¬ p ∈ (executeRun takeout_dir fs0).imageFiles := by
    intro hmem
    simp only [executeRun] at hmem
    have h1 := (List.mem_filter.mp hmem).1
    have h2 := (List.mem_filter.mp h1).2
    simp only [hp] at h2
    exact absurd h2 (by simp)
  have hjson : ¬ p ∈ (executeRun takeout_dir fs0).jsonFiles := by
    intro hmem
    simp only [executeRun] at hmem
    have h1 := (List.mem_filter.mp hmem).1
    have h2 := (List.mem_filter.mp h1).2
    simp only [hp] at h2
    exact absurd h2 (by simp)
  have hnf : ¬ p ∈ (executeRun takeout_dir fs0).notFound := by
    intro hmem
    apply himg
    simp only [executeRun] at hmem ⊢
    exact (List.mem_filter.mp hmem).1
  have hry : ReportsYearOnly (executeRun takeout_dir fs0).st := by
    simp only [executeRun]
    apply ReportsYearOnly_foldl_media _ _
      (fun img hx => (List.mem_filter.mp (List.mem_filter.mp hx).1).2)
    apply ReportsYearOnly_foldl_divergent _ _
      (fun jf hx => (List.mem_filter.mp (List.mem_filter.mp hx).1).2)
    exact ⟨fun m hm => absurd hm (List.not_mem_nil m),
           fun m hm => absurd hm (List.not_mem_nil m)⟩
  refine ⟨himg, hjson, ?_, hnf, ?_, ?_⟩
  · simp only [executeRun]
    rw [foldl_media_readF p hp _ _
      (fun img hx => (List.mem_filter.mp (List.mem_filter.mp hx).1).2)]
    rw [foldl_divergent_readF p hp _ _
      (fun jf hx => (List.mem_filter.mp (List.mem_filter.mp hx).1).2)]
  · intro m hm
    rcases hry.1 m hm with ⟨f, hf, hm'⟩ | ⟨f, hf, hm'⟩ | ⟨f, hf, hm'⟩ | ⟨w, f, hw, hf, hm'⟩
    · exact Or.inl ⟨f, hf, Ne.symm (ne_of_yeardir_mismatch hp hf), hm'⟩
    · exact Or.inr (Or.inl ⟨f, hf, Ne.symm (ne_of_yeardir_mismatch hp hf), hm'⟩)
    · exact Or.inr (Or.inr (Or.inl ⟨f, hf, Ne.symm (ne_of_yeardir_mismatch hp hf), hm'⟩))
    · exact Or.inr (Or.inr (Or.inr ⟨w, f, hw, Ne.symm (ne_of_yeardir_mismatch hp hw),
        hf, Ne.symm (ne_of_yeardir_mismatch hp hf), hm'⟩))
  · intro m hm
    rcases hry.2 m hm with ⟨s, d, hs, hd, hm'⟩ | ⟨f, hf, hm'⟩
    · exact Or.inl ⟨s, d, hs, Ne.symm (ne_of_yeardir_mismatch hp hs),
        hd, Ne.symm (ne_of_yeardir_mismatch hp hd), hm'⟩
    · exact Or.inr ⟨f, hf, Ne.symm (ne_of_yeardir_mismatch hp hf), hm'⟩

/-- Witness for C8: a file under a directory that is not a year bucket. -/
theorem C8_outside_year_untouched_witness :
    ¬ pstr "Downloads/x.jpg" ∈
      (executeRun (pstr "t") ⟨[(pstr "Downloads/x.jpg", Content.raw [])]⟩).imageFiles ∧
    (executeRun (pstr "t") ⟨[(pstr "Downloads/x.jpg", Content.raw [])]⟩).st.fs.readF
      (pstr "Downloads/x.jpg") = FS.readF ⟨[(pstr "Downloads/x.jpg", Content.raw [])]⟩
        (pstr "Downloads/x.jpg") :=
  ⟨(C8_outside_year_untouched ⟨[(pstr "Downloads/x.jpg", Content.raw [])]⟩ (pstr "t")
      (pstr "Downloads/x.jpg") (by decide)).1,
   (C8_outside_year_untouched ⟨[(pstr "Downloads/x.jpg", Content.raw [])]⟩ (pstr "t")
      (pstr "Downloads/x.jpg") (by decide)).2.2.1⟩

end GPF
